/-
Verification of the image-similarity grouping subsystem of openadapt/vision.py.

Shallow embedding conventions:
  * a numpy boolean mask is a `Mask := List (List Bool)` (rows of pixels,
    origin top-left, row-major);
  * a raster image is a `List (List (List Nat))` (rows of pixels, each pixel a
    list of channel values);
  * image dimensions are natural numbers; pixel/rational arithmetic is exact
    (`ℚ`), with comments marking the few places where the Python code uses
    floating point;
  * code that can raise a Python exception is modelled in `Except String`;
  * the SSIM score produced by `skimage.metrics.structural_similarity` inside
    `get_image_similarity` is numeric floating-point code outside the scope of
    the embedding; it is abstracted as an oracle `ssimF : Nat → Nat → ℚ`
    giving the score of the (ordered) pair of image indices.
-/
import Mathlib

deriving instance DecidableEq for Except

namespace Vision

/-! ### Generic list helpers -/

/-- Minimum of a list of naturals (`coords.min()` in numpy); 0 on `[]`
(numpy would raise there, every use below is guarded by a nonemptiness
check exactly as in the source). -/
def minOf (l : List Nat) : Nat :=
  match l with
  | [] => 0
  | a :: as => as.foldl min a

/-- Maximum of a list of naturals (`coords.max()` in numpy); 0 on `[]`. -/
def maxOf (l : List Nat) : Nat :=
  match l with
  | [] => 0
  | a :: as => as.foldl max a

/-! ### Masks -/

/-- A boolean mask: rows of pixels, row-major, origin top-left. -/
abbrev Mask := List (List Bool)

/-- Pixel read `mask[r][c]`, `false` out of range. -/
def cellB (m : Mask) (r c : Nat) : Bool :=
  (m.getD r []).getD c false

/-- Number of rows (`mask.shape[0]`). -/
def mHeight (m : Mask) : Nat := m.length

/-- Number of columns (`mask.shape[1]`; numpy arrays are rectangular, so the
width is read off the first row). -/
def mWidth (m : Mask) : Nat := (m.headD []).length

/-- A mask is rectangular: every row has the width of the first one.  Always
true of a numpy array. -/
def IsRect (m : Mask) : Prop := ∀ row ∈ m, row.length = mWidth m

/-- `np.argwhere(mask)`: row-major list of the coordinates of the on pixels. -/
def onCoords (m : Mask) : List (Nat × Nat) :=
  (List.range m.length).flatMap fun r =>
    (List.range ((m.getD r []).length)).filterMap fun c =>
      if (m.getD r []).getD c false then some (r, c) else none

/-- A mask with no on pixel. -/
def allOffB (m : Mask) : Bool :=
  m.all fun row => row.all fun b => !b

/-- Pointwise conjunction `mask_i & mask_j` (defined for same-shaped masks,
which is the only way the source ever uses it). -/
def maskAnd (a b : Mask) : Mask :=
  List.zipWith (fun ra rb => List.zipWith and ra rb) a b

/-! ### get_size_similarity (vision.py:524) -/

/-- `get_size_similarity(img1, img2)` on images of sizes `(w1, h1)` and
`(w2, h2)`:
`(min(w1/w2, w2/w1) + min(h1/h2, h2/h1)) / 2`.
The Python code divides floats; here the arithmetic is exact over `ℚ`
(for the positive dimensions of real images the float computation realises
the same mathematical expression). -/
def getSizeSimilarity (w1 h1 w2 h2 : Nat) : ℚ :=
  let widthRatio : ℚ := min ((w1 : ℚ) / (w2 : ℚ)) ((w2 : ℚ) / (w1 : ℚ))
  let heightRatio : ℚ := min ((h1 : ℚ) / (h2 : ℚ)) ((h2 : ℚ) / (h1 : ℚ))
  (widthRatio + heightRatio) / 2

/-! ### get_masks_from_segmented_image (vision.py:15) -/

/-- A raster image: rows of pixels, each pixel a list of channel values. -/
abbrev RawImage := List (List (List Nat))

/-- `segmented_image_np.shape[2]` (numpy arrays are uniform, so the channel
count is read off the first pixel). -/
def channelCount (img : RawImage) : Nat := ((img.headD []).headD []).length

/-- `segmented_image_np[:, :, :3]` applied when the image has 4 channels. -/
def stripAlpha (img : RawImage) : RawImage :=
  if channelCount img = 4 then img.map (fun row => row.map (fun p => p.take 3)) else img

/-- `reshape(-1, C)`: the pixels in row-major order. -/
def flatPixels (img : RawImage) : List (List Nat) := img.flatten

/-- Lexicographic comparison of colors, the row order used by
`np.unique(..., axis=0)`. -/
def colorLeB : List Nat → List Nat → Bool
  | [], _ => true
  | _ :: _, [] => false
  | x :: xs, y :: ys => if x < y then true else if y < x then false else colorLeB xs ys

instance instDecColorLe : DecidableRel (fun a b : List Nat => colorLeB a b = true) :=
  fun a b => inferInstanceAs (Decidable (colorLeB a b = true))

/-- `np.unique(pixels, axis=0)`: the distinct colors, lexicographically
ascending. -/
def uniqueColors (img : RawImage) : List (List Nat) :=
  List.insertionSort (fun a b => colorLeB a b = true) (flatPixels img).dedup

/-- `np.all(segmented_image_np == color, axis=-1)`. -/
def maskOfColor (img : RawImage) (color : List Nat) : Mask :=
  img.map fun row => row.map fun p => decide (p = color)

/-- `get_masks_from_segmented_image` (vision.py:15-44): one mask per unique
color of the (alpha-stripped) segmented image, built by the loop
`masks = []; for color in unique_colors: masks.append(...)`. -/
def getMasksFromSegmentedImage (img : RawImage) : List Mask :=
  let stripped := stripAlpha img
  (uniqueColors stripped).foldl (fun acc color => acc ++ [maskOfColor stripped color]) []

/-! ### filter_masks_by_size (vision.py:48) -/

/-- The row coordinates of the on pixels (`coords[:, 0]`). -/
def onRows (m : Mask) : List Nat := (onCoords m).map Prod.fst

/-- The column coordinates of the on pixels (`coords[:, 1]`). -/
def onCols (m : Mask) : List Nat := (onCoords m).map Prod.snd

/-- The test of `filter_masks_by_size` (vision.py:64-70): some on pixel, and
`height = y_max - y_min + 1 ≥ min_mask_size[0]`,
`width = x_max - x_min + 1 ≥ min_mask_size[1]`. -/
def sizeOk (minH minW : Nat) (m : Mask) : Bool :=
  !(onCoords m).isEmpty &&
    decide (minH ≤ maxOf (onRows m) - minOf (onRows m) + 1) &&
    decide (minW ≤ maxOf (onCols m) - minOf (onCols m) + 1)

/-- `filter_masks_by_size` (vision.py:48-72), default `min_mask_size = (15, 15)`. -/
def filterMasksBySize (minH minW : Nat) (masks : List Mask) : List Mask :=
  masks.foldl (fun acc mask => if sizeOk minH minW mask then acc ++ [mask] else acc) []

/-! ### remove_border_masks (vision.py:155) -/

/-- `int(dim * (threshold_percent / 100))`: Python `int()` truncates toward
zero, i.e. floors the nonnegative values occurring here.  The Python product
is computed in double precision; for the default 5.0 the rounding error never
carries the product across an integer, so the exact rational floor is the
same pixel count. -/
def borderThreshold (tp : ℚ) (dim : Nat) : Nat :=
  (Int.floor ((dim : ℚ) * (tp / 100))).toNat

/-- Python slice `l[-t:]` for `0 ≤ t ≤ len l`: the whole list when `t = 0`
(because `-0 = 0`), otherwise the last `t` elements. -/
def pySliceLast {α : Type} (t : Nat) (l : List α) : List α :=
  if t = 0 then l else l.drop (l.length - t)

/-- `is_close_to_all_borders` (vision.py:170-182).  Note the source slices
`mask[-threshold_rows:, :]` and `mask[:, -threshold_cols:]`, which are the
whole mask when the threshold rounds down to 0 pixels. -/
def isCloseToAllBorders (tp : ℚ) (m : Mask) : Bool :=
  let tRows := borderThreshold tp (mHeight m)
  let tCols := borderThreshold tp (mWidth m)
  let topB := (m.take tRows).any fun row => row.any id
  let botB := (pySliceLast tRows m).any fun row => row.any id
  let leftB := m.any fun row => (row.take tCols).any id
  let rightB := m.any fun row => (pySliceLast tCols row).any id
  topB && botB && leftB && rightB

/-- `remove_border_masks` (vision.py:155-193), default
`threshold_percent = 5.0`. -/
def removeBorderMasks (tp : ℚ) (masks : List Mask) : List Mask :=
  masks.foldl (fun acc mask => if isCloseToAllBorders tp mask then acc else acc ++ [mask]) []

/-! ### filter_thin_ragged_masks (vision.py:120) -/

/-- Pixel read at signed coordinates with an out-of-grid default.
`cv2.erode` pads the image border with the maximal value (255), so reads
outside the grid yield `true` during erosion; `cv2.dilate` pads with the
minimal value, yielding `false`. -/
def getCell (m : Mask) (r c : Int) (d : Bool) : Bool :=
  if 0 ≤ r ∧ r < (m.length : Int) then
    let row := m.getD r.toNat []
    if 0 ≤ c ∧ c < (row.length : Int) then row.getD c.toNat d else d
  else d

/-- Offsets of the all-ones 3×3 structuring element (the source's default
`kernel_size = 3`, centered anchor). -/
def winOffsets : List Int := [-1, 0, 1]

/-- One `cv2.erode` pass: minimum (here: conjunction) over the 3×3 window. -/
def erodeOnce (m : Mask) : Mask :=
  (List.range m.length).map fun r =>
    (List.range ((m.getD r []).length)).map fun (c : Nat) =>
      winOffsets.all fun dr => winOffsets.all fun dc =>
        getCell m ((r : Int) + dr) ((c : Int) + dc) true

/-- One `cv2.dilate` pass: maximum (here: disjunction) over the 3×3 window. -/
def dilateOnce (m : Mask) : Mask :=
  (List.range m.length).map fun r =>
    (List.range ((m.getD r []).length)).map fun (c : Nat) =>
      winOffsets.any fun dr => winOffsets.any fun dc =>
        getCell m ((r : Int) + dr) ((c : Int) + dc) false

/-- `n`-fold iteration of a mask transformation (`iterations=n`). -/
def iterOp (f : Mask → Mask) : Nat → Mask → Mask
  | 0, m => m
  | n + 1, m => iterOp f n (f m)

/-- The morphological opening a single mask undergoes in
`filter_thin_ragged_masks`: erosion then dilation, `iterations` times each.
The uint8/255 conversions of the source are value-preserving on booleans. -/
def openingOf (iterations : Nat) (m : Mask) : Mask :=
  iterOp dilateOnce iterations (iterOp erodeOnce iterations m)

/-- `filter_thin_ragged_masks` (vision.py:120-151), default `kernel_size = 3`,
`iterations = 5`: the loop `filtered_masks = []; for mask in masks:
filtered_masks.append(dilate(erode(mask)))`. -/
def filterThinRaggedMasks (iterations : Nat) (masks : List Mask) : List Mask :=
  masks.foldl (fun acc mask => acc ++ [openingOf iterations mask]) []

/-! ### binary_fill_holes (scipy, used at vision.py:98) -/

/-- One growth step of the flood fill `scipy.ndimage.binary_fill_holes`
performs on the complement of the mask (default structuring element:
4-connectivity, border value 1, i.e. the outside of the array is filled). -/
def growReach (m reach : Mask) : Mask :=
  (List.range m.length).map fun r =>
    (List.range ((m.getD r []).length)).map fun c =>
      !cellB m r c &&
        (decide (r = 0) || decide (c = 0) ||
         decide (r + 1 = m.length) || decide (c + 1 = (m.getD r []).length) ||
         cellB reach r c ||
         getCell reach ((r : Int) - 1) (c : Int) false ||
         getCell reach ((r : Int) + 1) (c : Int) false ||
         getCell reach (r : Int) ((c : Int) - 1) false ||
         getCell reach (r : Int) ((c : Int) + 1) false)

/-- Iterate the growth step to its fixpoint (at most one new cell per pass,
so `H*W + 1` passes suffice; the iteration stops at the fixpoint like
scipy's `iterations=-1` dilation). -/
def reachFix (m : Mask) : Nat → Mask → Mask
  | 0, reach => reach
  | n + 1, reach =>
    let reach' := growReach m reach
    if reach' = reach then reach else reachFix m n reach'

/-- An all-off mask of the same shape. -/
def emptyLike (m : Mask) : Mask := m.map fun row => row.map fun _ => false

/-- `binary_fill_holes(mask)`: the complement of the border-connected
background. -/
def fillHoles (m : Mask) : Mask :=
  let reach := reachFix m (m.length * mWidth m + 1) (emptyLike m)
  (List.range m.length).map fun r =>
    (List.range ((m.getD r []).length)).map fun c => !cellB reach r c

/-! ### refine_masks (vision.py:76) -/

/-- The containment test of the inner loop of `refine_masks`
(vision.py:104-111): some `j ≠ i` with
`np.array_equal(mask_i & mask_j, mask_i)`. -/
def containedInAnother (ms : List Mask) (i : Nat) : Bool :=
  (List.range ms.length).any fun j =>
    decide (j ≠ i) && decide (maskAnd (ms.getD i []) (ms.getD j []) = ms.getD i [])

/-- The containment-removal stage of `refine_masks` (vision.py:102-113):
`refined_masks = []; for i, mask_i in enumerate(...): ... if not contained:
refined_masks.append(mask_i)`. -/
def removeContainedMasks (ms : List Mask) : List Mask :=
  (List.range ms.length).foldl
    (fun acc i => if containedInAnother ms i then acc else acc ++ [ms.getD i []]) []

/-- `refine_masks` (vision.py:76-116): border filter, thin/ragged filter,
hole filling (`astype(np.uint8)` is value-preserving on booleans), size
filter at the default `(15, 15)`, containment removal. -/
def refineMasks (masks : List Mask) : List Mask :=
  let m1 := removeBorderMasks 5 masks
  let m2 := filterThinRaggedMasks 5 m1
  let filled := m2.map fillHoles
  let m3 := filterMasksBySize 15 15 filled
  removeContainedMasks m3

/-! ### extract_masked_images (vision.py:197) -/

/-- Indices of rows containing an on pixel: `np.where(np.any(mask, axis=1))[0]`. -/
def rowAnyIdxs (m : Mask) : List Nat :=
  (List.range m.length).filter fun r => (m.getD r []).any id

/-- Indices of columns containing an on pixel: `np.where(np.any(mask, axis=0))[0]`. -/
def colAnyIdxs (m : Mask) : List Nat :=
  (List.range (mWidth m)).filter fun c => m.any fun row => row.getD c false

/-- The per-mask body of `extract_masked_images` (vision.py:217-232).
`np.where(rows)[0][[0, -1]]` on an empty index array raises `IndexError`;
otherwise crop mask and image to the bounding box and zero the pixels outside
the mask. -/
def cropMaskedImage (img : RawImage) (m : Mask) : Except String RawImage :=
  if (rowAnyIdxs m).isEmpty then
    Except.error "IndexError: index 0 is out of bounds"
  else if (colAnyIdxs m).isEmpty then
    Except.error "IndexError: index 0 is out of bounds"
  else
    let rmin := (rowAnyIdxs m).headD 0
    let rmax := (rowAnyIdxs m).getLastD 0
    let cmin := (colAnyIdxs m).headD 0
    let cmax := (colAnyIdxs m).getLastD 0
    let croppedMask := ((m.drop rmin).take (rmax + 1 - rmin)).map
      fun row => (row.drop cmin).take (cmax + 1 - cmin)
    let croppedImg := ((img.drop rmin).take (rmax + 1 - rmin)).map
      fun row => (row.drop cmin).take (cmax + 1 - cmin)
    Except.ok (List.zipWith
      (fun mrow irow => List.zipWith
        (fun b px => if b then px else px.map fun _ => 0) mrow irow)
      croppedMask croppedImg)

/-- `extract_masked_images` (vision.py:197-235): apply the body to each mask
in order; the first `IndexError` aborts the call with no partial result. -/
def extractMaskedImages (img : RawImage) : List Mask → Except String (List RawImage)
  | [] => Except.ok []
  | m :: rest =>
    match cropMaskedImage img m with
    | Except.error e => Except.error e
    | Except.ok im =>
      match extractMaskedImages img rest with
      | Except.error e => Except.error e
      | Except.ok ims => Except.ok (im :: ims)

/-! ### calculate_bounding_boxes (vision.py:239) -/

/-- The `{"top", "left", "height", "width"}` dictionary (float values). -/
structure BBoxQ where
  top : ℚ
  left : ℚ
  height : ℚ
  width : ℚ
deriving DecidableEq

/-- Bounding box of one mask (vision.py:257-266): `none` is the sentinel
empty dictionary appended for a mask with no on pixel; otherwise
`top = rows.min()`, `left = cols.min()`, `height = rows.max() - top`,
`width = cols.max() - left` (no `+ 1`). -/
def bboxOf (m : Mask) : Option BBoxQ :=
  if (onRows m).isEmpty then none
  else some
    { top := (minOf (onRows m) : ℚ)
      left := (minOf (onCols m) : ℚ)
      height := ((maxOf (onRows m) - minOf (onRows m) : Nat) : ℚ)
      width := ((maxOf (onCols m) - minOf (onCols m) : Nat) : ℚ) }

/-- Centroid of one mask (vision.py:269): `none` is the `(nan, nan)` sentinel
for an empty mask; otherwise `(left + width/2, top + height/2)`. -/
def centroidOf (m : Mask) : Option (ℚ × ℚ) :=
  if (onRows m).isEmpty then none
  else some
    ((minOf (onCols m) : ℚ) + ((maxOf (onCols m) - minOf (onCols m) : Nat) : ℚ) / 2,
     (minOf (onRows m) : ℚ) + ((maxOf (onRows m) - minOf (onRows m) : Nat) : ℚ) / 2)

/-- `calculate_bounding_boxes` (vision.py:239-282): the loop appending a
bounding box and a centroid per mask. -/
def calculateBoundingBoxes (masks : List Mask) :
    List (Option BBoxQ) × List (Option (ℚ × ℚ)) :=
  masks.foldl (fun acc mask => (acc.1 ++ [bboxOf mask], acc.2 ++ [centroidOf mask])) ([], [])

/-! ### get_similar_image_idxs (vision.py:451) -/

/-- Image dimensions `(width, height)` — for similarity grouping only the
sizes of the region images matter; their pixel content enters solely through
the SSIM oracle. -/
abbrev Dims := Nat × Nat

/-- `get_size_similarity(images[i], images[j])` on dimension pairs. -/
def sizeSimDims (d1 d2 : Dims) : ℚ := getSizeSimilarity d1.1 d1.2 d2.1 d2.2

/-- A float comparison `x >= t` where `x` may be `math.nan` (modelled as
`none`): any comparison with NaN is `False` in Python. -/
def optGe (x : Option ℚ) (t : ℚ) : Bool :=
  match x with
  | none => false
  | some v => decide (t ≤ v)

/-- Entry `(i, j)` of `ssim_matrix` after the first loop of
`get_similar_image_idxs` (vision.py:488-499): 1.0 on the diagonal; the SSIM
of the pair (computed by `get_image_similarity`, abstracted as the oracle
`ssimF` on the ordered index pair) when `short_circuit_ssim` is off or the
size similarity reaches the threshold; otherwise the `math.nan` sentinel
(`none`). -/
def ssimEntry (dims : List Dims) (ssimF : Nat → Nat → ℚ) (sizeThr : ℚ) (sc : Bool)
    (i j : Nat) : Option ℚ :=
  if i = j then some 1
  else if !sc || decide (sizeThr ≤ sizeSimDims (dims.getD (min i j) (0, 0)) (dims.getD (max i j) (0, 0))) then
    some (ssimF (min i j) (max i j))
  else none

/-- Entry `(i, j)` of `size_similarity_matrix`: 1.0 on the diagonal,
`get_size_similarity(images[i], images[j])` off it. -/
def sizeEntry (dims : List Dims) (i j : Nat) : ℚ :=
  if i = j then 1 else sizeSimDims (dims.getD i (0, 0)) (dims.getD j (0, 0))

/-- The exception the grouping loop raises: vision.py:510 compares against
the undefined name `size_similarity_thresholdi` (a typo for
`size_similarity_threshold`). -/
def nameErrorMsg : String := "NameError: name size_similarity_thresholdi is not defined"

/-- The inner `for j in range(i+1, num_images)` loop of the grouping pass
(vision.py:505-513).  Python evaluates the conjunction left to right: when
`ssim_matrix[i][j] >= min_ssim` is `False` (including the NaN case) the
undefined second conjunct is never read and `j` is skipped; when it is
`True`, reading `size_similarity_thresholdi` raises `NameError`, so no `j`
is ever appended to the group. -/
def innerScan (ssimM : Nat → Nat → Option ℚ) (minSsim : ℚ) (i : Nat) :
    List Nat → List Nat → List Nat → Except String (List Nat × List Nat)
  | [], group, already => Except.ok (group, already)
  | j :: js, group, already =>
    if j ∈ already then innerScan ssimM minSsim i js group already
    else if optGe (ssimM i j) minSsim then Except.error nameErrorMsg
    else innerScan ssimM minSsim i js group already

/-- The outer `for i in range(num_images)` loop of the grouping pass
(vision.py:501-517): skip seeds already grouped, scan candidates, record
groups of size ≥ 2, and mark the seed compared regardless. -/
def outerScan (ssimM : Nat → Nat → Option ℚ) (minSsim : ℚ) (n : Nat) :
    List Nat → List (List Nat) → List Nat → Except String (List (List Nat) × List Nat)
  | [], groups, already => Except.ok (groups, already)
  | i :: is, groups, already =>
    if i ∈ already then outerScan ssimM minSsim n is groups already
    else
      match innerScan ssimM minSsim i ((List.range n).drop (i + 1)) [i] already with
      | Except.error e => Except.error e
      | Except.ok (group, already') =>
        let groups' := if 1 < group.length then groups ++ [group] else groups
        outerScan ssimM minSsim n is groups' (already' ++ [i])

/-- `get_similar_image_idxs` (vision.py:451-521).  The first pass fills the
two symmetric matrices (no exception is possible there for images of
positive dimensions); the grouping pass may raise the `NameError` of the
misspelled threshold; `not_grouped_indices` is the set difference
`all_indices - already_compared` (listed ascending — it is provably always
empty, so the Python set iteration order is immaterial). -/
def getSimilarImageIdxs (dims : List Dims) (ssimF : Nat → Nat → ℚ)
    (minSsim sizeThr : ℚ) (shortCircuitSsim : Bool) :
    Except String (List (List Nat) × List Nat × List (List (Option ℚ)) × List (List ℚ)) :=
  let n := dims.length
  let ssimM := ssimEntry dims ssimF sizeThr shortCircuitSsim
  match outerScan ssimM minSsim n (List.range n) [] [] with
  | Except.error e => Except.error e
  | Except.ok (groups, already) =>
    let notGrouped := (List.range n).filter fun k => decide (k ∉ already)
    let ssimMat := (List.range n).map fun i => (List.range n).map fun j => ssimM i j
    let sizeMat := (List.range n).map fun i => (List.range n).map fun j => sizeEntry dims i j
    Except.ok (groups, notGrouped, ssimMat, sizeMat)

/-! ### Spec-side definitions (translated from the words of the spec, for
comparison with the code-side definitions above) -/

/-- The spec's bounding-box height convention: `height = max_row − min_row`
(no `+ 1`). -/
def specHeight (m : Mask) : Nat := maxOf (onRows m) - minOf (onRows m)

/-- The spec's bounding-box width convention: `width = max_col − min_col`. -/
def specWidth (m : Mask) : Nat := maxOf (onCols m) - minOf (onCols m)

/-- Modelled from the spec: "no surviving mask has on-pixels within the
border threshold on all four sides simultaneously" — an on pixel in each of
the four geometric border bands of width `threshold_percent` of the
corresponding dimension (rows `< t` / `≥ H − t`, columns `< t` / `≥ W − t`;
a band of zero width contains no pixel). -/
def closeToAllBordersSpec (tp : ℚ) (m : Mask) : Bool :=
  let tRows := borderThreshold tp (mHeight m)
  let tCols := borderThreshold tp (mWidth m)
  ((onCoords m).any fun p => decide (p.1 < tRows)) &&
    ((onCoords m).any fun p => decide (mHeight m - tRows ≤ p.1)) &&
    ((onCoords m).any fun p => decide (p.2 < tCols)) &&
    ((onCoords m).any fun p => decide (mWidth m - tCols ≤ p.2))

/-- The claim's characterization of containment removal: keep exactly the
masks at indices `i` for which no `j ≠ i` satisfies
`mask_i AND mask_j == mask_i`. -/
def notContainedFilter (ms : List Mask) : List Mask :=
  (List.range ms.length).filterMap fun i =>
    if containedInAnother ms i then none else some (ms.getD i [])

/-- `a` is a strict pixel-subset of `b`: `a AND b == a` and `a ≠ b`. -/
def strictSubmask (a b : Mask) : Prop := maskAnd a b = a ∧ a ≠ b

/-! ### Pointwise order and shape of masks (proof infrastructure) -/

/-- Pointwise containment of masks (reads out of range are `false`). -/
def leMask (a b : Mask) : Prop := ∀ r c, cellB a r c = true → cellB b r c = true

/-- Two masks with the same number of rows and the same row lengths. -/
def SameShape (a b : Mask) : Prop :=
  a.length = b.length ∧ ∀ r, (a.getD r []).length = (b.getD r []).length

/-- `S` is a set of in-grid background cells of `m`: the invariant of the
flood-fill iteration of `fillHoles`. -/
def BgSub (m S : Mask) : Prop :=
  ∀ r c, cellB S r c = true →
    r < m.length ∧ c < (m.getD r []).length ∧ cellB m r c = false

/-! ### Concrete masks and images for the counterexamples and witnesses -/

/-- A 10×10 mask whose on pixels form the single row 5: thin, eroded away
entirely by the first erosion pass. -/
def thinMask : Mask :=
  (List.range 10).map fun r => (List.range 10).map fun _ => decide (r = 5)

/-- A 15×15 all-on mask: its on-pixel bounding box spans rows 0..14, so the
source's `max − min + 1` height is 15 while the spec convention
`max − min` gives 14. -/
def full15 : Mask := List.replicate 15 (List.replicate 15 true)

/-- A small 3×3 all-on mask. -/
def full3 : Mask := List.replicate 3 (List.replicate 3 true)

/-- A 2×2 3-channel image with two colors: `(1,2,3)` at three pixels and
`(9,9,9)` at one. -/
def sampleSegImg : RawImage := [[[1, 2, 3], [9, 9, 9]], [[1, 2, 3], [1, 2, 3]]]

end Vision

namespace Vision

/-! ### Helper lemmas -/

theorem foldl_min_le_init : ∀ (bs : List Nat) (a : Nat), bs.foldl min a ≤ a := by
  intro bs
  induction bs with
  | nil => intro a; exact le_refl a
  | cons b bs ih =>
    intro a
    exact le_trans (ih (min a b)) (min_le_left a b)

theorem foldl_min_le_mem : ∀ (bs : List Nat) (a x : Nat), x ∈ bs → bs.foldl min a ≤ x := by
  intro bs
  induction bs with
  | nil => intro a x hx; cases hx
  | cons b bs ih =>
    intro a x hx
    rcases List.mem_cons.mp hx with h | h
    · subst h
      exact le_trans (foldl_min_le_init bs (min a x)) (min_le_right a x)
    · exact ih (min a b) x h

theorem le_foldl_max_init : ∀ (bs : List Nat) (a : Nat), a ≤ bs.foldl max a := by
  intro bs
  induction bs with
  | nil => intro a; exact le_refl a
  | cons b bs ih =>
    intro a
    exact le_trans (le_max_left a b) (ih (max a b))

theorem le_foldl_max_mem : ∀ (bs : List Nat) (a x : Nat), x ∈ bs → x ≤ bs.foldl max a := by
  intro bs
  induction bs with
  | nil => intro a x hx; cases hx
  | cons b bs ih =>
    intro a x hx
    rcases List.mem_cons.mp hx with h | h
    · subst h
      exact le_trans (le_max_right a x) (le_foldl_max_init bs (max a x))
    · exact ih (max a b) x h

theorem minOf_le {l : List Nat} {x : Nat} (hx : x ∈ l) : minOf l ≤ x := by
  match l with
  | [] => cases hx
  | a :: as =>
    simp only [minOf]
    rcases List.mem_cons.mp hx with h | h
    · subst h; exact foldl_min_le_init as x
    · exact foldl_min_le_mem as a x h

theorem le_maxOf {l : List Nat} {x : Nat} (hx : x ∈ l) : x ≤ maxOf l := by
  match l with
  | [] => cases hx
  | a :: as =>
    simp only [maxOf]
    rcases List.mem_cons.mp hx with h | h
    · subst h; exact le_foldl_max_init as x
    · exact le_foldl_max_mem as a x h

theorem foldl_min_mem : ∀ (bs : List Nat) (a : Nat), bs.foldl min a = a ∨ bs.foldl min a ∈ bs := by
  intro bs
  induction bs with
  | nil => intro a; exact Or.inl rfl
  | cons b bs ih =>
    intro a
    have hstep : (b :: bs).foldl min a = bs.foldl min (min a b) := rfl
    rcases ih (min a b) with h | h
    · rcases le_total a b with hab | hab
      · left; rw [hstep, h, min_eq_left hab]
      · right; rw [hstep, h, min_eq_right hab]; exact List.mem_cons_self b bs
    · right; rw [hstep]; exact List.mem_cons_of_mem b h

theorem foldl_max_mem : ∀ (bs : List Nat) (a : Nat), bs.foldl max a = a ∨ bs.foldl max a ∈ bs := by
  intro bs
  induction bs with
  | nil => intro a; exact Or.inl rfl
  | cons b bs ih =>
    intro a
    have hstep : (b :: bs).foldl max a = bs.foldl max (max a b) := rfl
    rcases ih (max a b) with h | h
    · rcases le_total a b with hab | hab
      · right; rw [hstep, h, max_eq_right hab]; exact List.mem_cons_self b bs
      · left; rw [hstep, h, max_eq_left hab]
    · right; rw [hstep]; exact List.mem_cons_of_mem b h

theorem minOf_mem {l : List Nat} (h : l ≠ []) : minOf l ∈ l := by
  match l with
  | [] => exact absurd rfl h
  | a :: as =>
    simp only [minOf]
    rcases foldl_min_mem as a with h' | h'
    · rw [h']; exact List.mem_cons_self a as
    · exact List.mem_cons_of_mem a h'

theorem maxOf_mem {l : List Nat} (h : l ≠ []) : maxOf l ∈ l := by
  match l with
  | [] => exact absurd rfl h
  | a :: as =>
    simp only [maxOf]
    rcases foldl_max_mem as a with h' | h'
    · rw [h']; exact List.mem_cons_self a as
    · exact List.mem_cons_of_mem a h'

/-- Loops of the shape `acc = []; for x in l: acc.append(f x)` are
`List.map`. -/
theorem foldl_append_map {α β : Type} (f : α → β) :
    ∀ (l : List α) (acc : List β),
      l.foldl (fun a x => a ++ [f x]) acc = acc ++ l.map f := by
  intro l
  induction l with
  | nil => intro acc; simp
  | cons x xs ih => intro acc; simp [List.foldl, ih]

/-- Loops of the shape `acc = []; for x in l: if p x: acc.append(x)` are
`List.filter`. -/
theorem foldl_append_filter {α : Type} (p : α → Bool) :
    ∀ (l : List α) (acc : List α),
      l.foldl (fun a x => if p x then a ++ [x] else a) acc = acc ++ l.filter p := by
  intro l
  induction l with
  | nil => intro acc; simp
  | cons x xs ih =>
    intro acc
    by_cases h : p x = true
    · simp [List.foldl, h, ih]
    · simp only [Bool.not_eq_true] at h
      simp [List.foldl, h, ih]

/-- Loops of the shape `acc = []; for x in l: if not p x: acc.append(g x)`
are a `filterMap`. -/
theorem foldl_append_filterMap {α β : Type} (p : α → Bool) (g : α → β) :
    ∀ (l : List α) (acc : List β),
      l.foldl (fun a x => if p x then a else a ++ [g x]) acc =
        acc ++ l.filterMap (fun x => if p x then none else some (g x)) := by
  intro l
  induction l with
  | nil => intro acc; simp
  | cons x xs ih =>
    intro acc
    by_cases h : p x = true
    · simp [List.foldl, h, ih]
    · simp only [Bool.not_eq_true] at h
      simp [List.foldl, h, ih]

/-- Membership in `onCoords`. -/
theorem mem_onCoords {m : Mask} {r c : Nat} :
    (r, c) ∈ onCoords m ↔
      r < m.length ∧ c < (m.getD r []).length ∧ cellB m r c = true := by
  unfold onCoords cellB
  constructor
  · intro h
    rcases List.mem_flatMap.mp h with ⟨r', hr', hc⟩
    rcases List.mem_filterMap.mp hc with ⟨c', hc', hif⟩
    by_cases hb : (m.getD r' []).getD c' false = true
    · rw [if_pos hb] at hif
      have h12 : (r', c') = (r, c) := Option.some.inj hif
      have hr12 : r' = r := congrArg Prod.fst h12
      have hc12 : c' = c := congrArg Prod.snd h12
      subst hr12; subst hc12
      exact ⟨List.mem_range.mp hr', List.mem_range.mp hc', hb⟩
    · rw [if_neg hb] at hif
      exact absurd hif (by simp)
  · rintro ⟨hr, hc, hb⟩
    refine List.mem_flatMap.mpr ⟨r, List.mem_range.mpr hr, ?_⟩
    refine List.mem_filterMap.mpr ⟨c, List.mem_range.mpr hc, ?_⟩
    rw [if_pos hb]

/-! ### C8 : get_size_similarity algebra -/

theorem eq_of_min_eq_max {a b : ℚ} (h : min a b = max a b) : a = b :=
  le_antisymm
    (calc a ≤ max a b := le_max_left _ _
      _ = min a b := h.symm
      _ ≤ b := min_le_right _ _)
    (calc b ≤ max a b := le_max_right _ _
      _ = min a b := h.symm
      _ ≤ a := min_le_left _ _)

theorem min_div_div_eq {a b : ℚ} (ha : 0 < a) (hb : 0 < b) :
    min (a / b) (b / a) = min a b / max a b := by
  rcases le_total a b with h | h
  · have h1 : a / b ≤ 1 := (div_le_one hb).mpr h
    have h2 : (1 : ℚ) ≤ b / a := (one_le_div ha).mpr h
    rw [min_eq_left (le_trans h1 h2), min_eq_left h, max_eq_right h]
  · have h1 : b / a ≤ 1 := (div_le_one ha).mpr h
    have h2 : (1 : ℚ) ≤ a / b := (one_le_div hb).mpr h
    rw [min_eq_right (le_trans h1 h2), min_eq_right h, max_eq_left h]

/-- C8: `get_size_similarity` equals the spec formula
`(min(w1,w2)/max(w1,w2) + min(h1,h2)/max(h1,h2)) / 2`, is symmetric,
lies in `[0, 1]`, and equals 1 exactly on identical dimensions. -/
theorem getSizeSimilarity_spec (w1 h1 w2 h2 : Nat)
    (hw1 : 0 < w1) (hh1 : 0 < h1) (hw2 : 0 < w2) (hh2 : 0 < h2) :
    getSizeSimilarity w1 h1 w2 h2 =
        ((min w1 w2 : ℚ) / (max w1 w2 : ℚ) + (min h1 h2 : ℚ) / (max h1 h2 : ℚ)) / 2 ∧
      getSizeSimilarity w1 h1 w2 h2 = getSizeSimilarity w2 h2 w1 h1 ∧
      0 ≤ getSizeSimilarity w1 h1 w2 h2 ∧
      getSizeSimilarity w1 h1 w2 h2 ≤ 1 ∧
      (getSizeSimilarity w1 h1 w2 h2 = 1 ↔ (w1 = w2 ∧ h1 = h2)) := by
  have hw1q : (0 : ℚ) < (w1 : ℚ) := by exact_mod_cast hw1
  have hh1q : (0 : ℚ) < (h1 : ℚ) := by exact_mod_cast hh1
  have hw2q : (0 : ℚ) < (w2 : ℚ) := by exact_mod_cast hw2
  have hh2q : (0 : ℚ) < (h2 : ℚ) := by exact_mod_cast hh2
  have hwmin : (0 : ℚ) < min (w1 : ℚ) (w2 : ℚ) := lt_min hw1q hw2q
  have hhmin : (0 : ℚ) < min (h1 : ℚ) (h2 : ℚ) := lt_min hh1q hh2q
  have hwmax : (0 : ℚ) < max (w1 : ℚ) (w2 : ℚ) := lt_of_lt_of_le hw1q (le_max_left _ _)
  have hhmax : (0 : ℚ) < max (h1 : ℚ) (h2 : ℚ) := lt_of_lt_of_le hh1q (le_max_left _ _)
  have heqw : min ((w1 : ℚ) / w2) ((w2 : ℚ) / w1) =
      min (w1 : ℚ) (w2 : ℚ) / max (w1 : ℚ) (w2 : ℚ) := min_div_div_eq hw1q hw2q
  have heqh : min ((h1 : ℚ) / h2) ((h2 : ℚ) / h1) =
      min (h1 : ℚ) (h2 : ℚ) / max (h1 : ℚ) (h2 : ℚ) := min_div_div_eq hh1q hh2q
  have hformula : getSizeSimilarity w1 h1 w2 h2 =
      ((min w1 w2 : ℚ) / (max w1 w2 : ℚ) + (min h1 h2 : ℚ) / (max h1 h2 : ℚ)) / 2 := by
    unfold getSizeSimilarity
    rw [heqw, heqh]
  have hwratio_le : min (w1 : ℚ) (w2 : ℚ) / max (w1 : ℚ) (w2 : ℚ) ≤ 1 := by
    rw [div_le_one hwmax]; exact le_trans (min_le_left _ _) (le_max_left _ _)
  have hhratio_le : min (h1 : ℚ) (h2 : ℚ) / max (h1 : ℚ) (h2 : ℚ) ≤ 1 := by
    rw [div_le_one hhmax]; exact le_trans (min_le_left _ _) (le_max_left _ _)
  have hwratio_pos : 0 < min (w1 : ℚ) (w2 : ℚ) / max (w1 : ℚ) (w2 : ℚ) :=
    div_pos hwmin hwmax
  have hhratio_pos : 0 < min (h1 : ℚ) (h2 : ℚ) / max (h1 : ℚ) (h2 : ℚ) :=
    div_pos hhmin hhmax
  refine ⟨hformula, ?_, ?_, ?_, ?_⟩
  · unfold getSizeSimilarity
    rw [min_comm ((w1 : ℚ) / w2), min_comm ((h1 : ℚ) / h2)]
  · rw [hformula]
    positivity
  · rw [hformula]
    linarith [div_pos hwmin hwmax, div_pos hhmin hhmax]
  · rw [hformula]
    constructor
    · intro h1eq
      have hw : min (w1 : ℚ) (w2 : ℚ) / max (w1 : ℚ) (w2 : ℚ) = 1 := by linarith
      have hh : min (h1 : ℚ) (h2 : ℚ) / max (h1 : ℚ) (h2 : ℚ) = 1 := by linarith
      rw [div_eq_one_iff_eq (ne_of_gt hwmax)] at hw
      rw [div_eq_one_iff_eq (ne_of_gt hhmax)] at hh
      constructor
      · exact_mod_cast eq_of_min_eq_max hw
      · exact_mod_cast eq_of_min_eq_max hh
    · rintro ⟨hw, hh⟩
      subst hw; subst hh
      rw [min_self, max_self, min_self, max_self,
        div_self (ne_of_gt hw1q), div_self (ne_of_gt hh1q)]
      norm_num

/-- Witness for C8 at `w1 = 20, h1 = 20, w2 = 5, h2 = 5`:
`get_size_similarity = 1/4` there and the algebraic facts hold. -/
theorem getSizeSimilarity_spec_witness :
    getSizeSimilarity 20 20 5 5 = getSizeSimilarity 5 5 20 20 ∧
      getSizeSimilarity 20 20 5 5 ≤ 1 := by
  have h := getSizeSimilarity_spec 20 20 5 5 (by decide) (by decide) (by decide) (by decide)
  exact ⟨h.2.1, h.2.2.2.1⟩

set_option maxRecDepth 400000

/-! ### Characterizations of the loop translations -/

theorem getD_mem_of_lt {α : Type} (l : List α) (d : α) {i : Nat} (h : i < l.length) :
    l.getD i d ∈ l := by
  rw [List.getD_eq_getElem l d h]
  exact List.getElem_mem h

theorem filterMap_if_not {α : Type} (p : α → Bool) (l : List α) :
    l.filterMap (fun x => if p x then none else some x) = l.filter (fun x => !p x) := by
  induction l with
  | nil => rfl
  | cons x xs ih =>
    by_cases h : p x = true
    · simp [List.filterMap_cons, List.filter_cons, h, ih]
    · simp only [Bool.not_eq_true] at h
      simp [List.filterMap_cons, List.filter_cons, h, ih]

theorem filterMasksBySize_eq_filter (minH minW : Nat) (masks : List Mask) :
    filterMasksBySize minH minW masks = masks.filter (sizeOk minH minW) := by
  unfold filterMasksBySize
  rw [foldl_append_filter]
  rfl

theorem removeBorderMasks_eq_filter (tp : ℚ) (masks : List Mask) :
    removeBorderMasks tp masks = masks.filter (fun m => !isCloseToAllBorders tp m) := by
  unfold removeBorderMasks
  rw [foldl_append_filterMap (isCloseToAllBorders tp) (fun m => m), filterMap_if_not]
  rfl

theorem filterThinRaggedMasks_eq_map (n : Nat) (masks : List Mask) :
    filterThinRaggedMasks n masks = masks.map (openingOf n) := by
  unfold filterThinRaggedMasks
  rw [foldl_append_map]
  rfl

theorem removeContainedMasks_eq_filterMap (ms : List Mask) :
    removeContainedMasks ms = notContainedFilter ms := by
  unfold removeContainedMasks notContainedFilter
  rw [foldl_append_filterMap]
  rfl

theorem removeContainedMasks_subset {ms : List Mask} {m : Mask}
    (hm : m ∈ removeContainedMasks ms) : m ∈ ms := by
  rw [removeContainedMasks_eq_filterMap] at hm
  unfold notContainedFilter at hm
  rcases List.mem_filterMap.mp hm with ⟨i, hi, hif⟩
  by_cases hc : containedInAnother ms i = true
  · rw [if_pos hc] at hif
    cases hif
  · rw [if_neg hc] at hif
    have h := Option.some.inj hif
    rw [← h]
    exact getD_mem_of_lt ms [] (List.mem_range.mp hi)

/-- `int(dim * (5.0 / 100))` is `dim / 20` (integer division); the
double-precision product never crosses an integer boundary for this ratio. -/
theorem borderThreshold_five (d : Nat) : borderThreshold 5 d = d / 20 := by
  unfold borderThreshold
  have h1 : ((d : ℚ) * (5 / 100)) = (d : ℚ) / ((20 : ℕ) : ℚ) := by push_cast; ring
  rw [h1, Int.floor_toNat, Nat.floor_div_nat, Nat.floor_natCast]

/-- `full15` survives the whole refinement pipeline. -/
theorem full15_mem_refineMasks : full15 ∈ refineMasks [full15] := by
  have h : isCloseToAllBorders 5 full15 = false := by
    unfold isCloseToAllBorders
    rw [borderThreshold_five, borderThreshold_five]
    decide
  have h2 : removeBorderMasks 5 [full15] = [full15] := by
    unfold removeBorderMasks
    rw [List.foldl, if_neg (by rw [h]; exact Bool.false_ne_true), List.foldl]
    rfl
  unfold refineMasks
  rw [h2]
  decide

/-! ### C3 : the size filter and the spec's bounding-box convention -/

/-- C3 counterexample: the 15×15 all-on mask passes
`filter_masks_by_size` with the default minimum `(15, 15)`, yet its bounding
box in the spec's convention (`height = max_row − min_row`, no `+1`) is only
14×14 — so the claim that every survivor has spec-height ≥ 15 and spec-width
≥ 15 is false. -/
theorem filter_masks_by_size_spec_convention_cex :
    filterMasksBySize 15 15 [full15] = [full15] ∧
      specHeight full15 = 14 ∧ specWidth full15 = 14 := by
  refine ⟨by decide, by decide, by decide⟩

/-- C3 (amended): `filter_masks_by_size` keeps exactly the masks with an on
pixel and inclusive bounding-box span `max − min + 1` at least the minimum in
both dimensions; hence with the default `(15, 15)` every survivor of the
filter — and of `refine_masks`, whose later stage only removes masks — is
nonempty with `specHeight = max_row − min_row ≥ 14` and
`specWidth = max_col − min_col ≥ 14` (not ≥ 15 as the claim stated). -/
theorem filter_masks_by_size_bounds :
    (∀ (masks : List Mask) (m : Mask),
        m ∈ filterMasksBySize 15 15 masks ↔ m ∈ masks ∧ sizeOk 15 15 m = true) ∧
      (∀ (masks : List Mask) (m : Mask), m ∈ filterMasksBySize 15 15 masks →
        onCoords m ≠ [] ∧ 14 ≤ specHeight m ∧ 14 ≤ specWidth m) ∧
      (∀ (masks : List Mask) (m : Mask), m ∈ refineMasks masks →
        onCoords m ≠ [] ∧ 14 ≤ specHeight m ∧ 14 ≤ specWidth m) := by
  have hiff : ∀ (masks : List Mask) (m : Mask),
      m ∈ filterMasksBySize 15 15 masks ↔ m ∈ masks ∧ sizeOk 15 15 m = true := by
    intro masks m
    rw [filterMasksBySize_eq_filter]
    exact List.mem_filter
  have hbound : ∀ m : Mask, sizeOk 15 15 m = true →
      onCoords m ≠ [] ∧ 14 ≤ specHeight m ∧ 14 ≤ specWidth m := by
    intro m h
    unfold sizeOk at h
    simp only [Bool.and_eq_true, Bool.not_eq_true', decide_eq_true_eq] at h
    obtain ⟨⟨hne, hH⟩, hW⟩ := h
    have hne' : onCoords m ≠ [] := by
      intro hc
      rw [hc] at hne
      simp at hne
    have hrows : onRows m ≠ [] := by
      unfold onRows
      intro hc
      exact hne' (List.map_eq_nil_iff.mp hc)
    have hcols : onCols m ≠ [] := by
      unfold onCols
      intro hc
      exact hne' (List.map_eq_nil_iff.mp hc)
    have hr : minOf (onRows m) ≤ maxOf (onRows m) := minOf_le (maxOf_mem hrows)
    have hc : minOf (onCols m) ≤ maxOf (onCols m) := minOf_le (maxOf_mem hcols)
    unfold specHeight specWidth
    exact ⟨hne', by omega, by omega⟩
  refine ⟨hiff, ?_, ?_⟩
  · intro masks m hm
    exact hbound m ((hiff masks m).mp hm).2
  · intro masks m hm
    unfold refineMasks at hm
    have hm2 := removeContainedMasks_subset hm
    exact hbound m ((hiff _ m).mp hm2).2

/-- Witness for C3: `full15` survives `refine_masks` and satisfies the
amended bounds. -/
theorem filter_masks_by_size_bounds_witness :
    onCoords full15 ≠ [] ∧ 14 ≤ specHeight full15 ∧ 14 ≤ specWidth full15 :=
  filter_masks_by_size_bounds.2.2 [full15] full15 full15_mem_refineMasks

/-! ### C4 : the thin/ragged filter removes nothing from the list -/

theorem getCell_false_of_allOff {m : Mask} (h : allOffB m = true) (r c : Int) :
    getCell m r c false = false := by
  unfold getCell
  by_cases h1 : 0 ≤ r ∧ r < (m.length : Int)
  · rw [if_pos h1]
    show (if 0 ≤ c ∧ c < ((m.getD r.toNat []).length : Int)
      then (m.getD r.toNat []).getD c.toNat false else false) = false
    by_cases h2 : 0 ≤ c ∧ c < ((m.getD r.toNat []).length : Int)
    · rw [if_pos h2]
      have h3 : c.toNat < (m.getD r.toNat []).length := by omega
      have h4 : r.toNat < m.length := by omega
      rw [List.getD_eq_getElem _ _ h3]
      have hrow : m.getD r.toNat [] ∈ m := getD_mem_of_lt m [] h4
      have hel : (m.getD r.toNat [])[c.toNat] ∈ m.getD r.toNat [] := List.getElem_mem h3
      unfold allOffB at h
      rw [List.all_eq_true] at h
      have := h _ hrow
      rw [List.all_eq_true] at this
      have hb := this _ hel
      simp only [Bool.not_eq_true'] at hb
      exact hb
    · rw [if_neg h2]
  · rw [if_neg h1]

theorem allOffB_dilateOnce {m : Mask} (h : allOffB m = true) :
    allOffB (dilateOnce m) = true := by
  unfold allOffB dilateOnce
  rw [List.all_eq_true]
  intro row hrow
  rcases List.mem_map.mp hrow with ⟨r, _, hr⟩
  rw [← hr, List.all_eq_true]
  intro b hb
  rcases List.mem_map.mp hb with ⟨c, _, hc⟩
  rw [← hc]
  have : (winOffsets.any fun dr => winOffsets.any fun dc =>
      getCell m ((r : Int) + dr) ((c : Int) + dc) false) = false := by
    rw [← Bool.not_eq_true, List.any_eq_true]
    rintro ⟨dr, _, hdr⟩
    rw [List.any_eq_true] at hdr
    rcases hdr with ⟨dc, _, hdc⟩
    rw [getCell_false_of_allOff h] at hdc
    cases hdc
  rw [this]
  rfl

theorem allOffB_iterOp_dilate (n : Nat) {m : Mask} (h : allOffB m = true) :
    allOffB (iterOp dilateOnce n m) = true := by
  induction n generalizing m with
  | zero => exact h
  | succ k ih => exact ih (allOffB_dilateOnce h)

/-- C4 counterexample: the thin 10×10 single-row mask is erased by the
opening but NOT removed from the returned list — the output has the same
length as the input and contains an all-off mask, contradicting the claim
that non-surviving masks are eliminated (and that some input yields a
strictly shorter output). -/
theorem filter_thin_ragged_not_dropped_cex :
    (filterThinRaggedMasks 5 [thinMask]).length = 1 ∧
      allOffB ((filterThinRaggedMasks 5 [thinMask]).headD []) = true ∧
      allOffB thinMask = false := by
  refine ⟨by decide, by decide, by decide⟩

/-- C4 (amended): `filter_thin_ragged_masks` replaces each mask by its
morphological opening (erosion then dilation, 3×3 kernel, `iterations` times
each) and removes nothing: the output has exactly the length of the input,
and a mask erased by the erosion step stays in the list as an all-off mask
(dilation cannot revive it); such masks are only discarded later by the size
filter. -/
theorem filter_thin_ragged_masks_opening :
    (∀ (n : Nat) (masks : List Mask),
        filterThinRaggedMasks n masks = masks.map (openingOf n)) ∧
      (∀ (n : Nat) (masks : List Mask),
        (filterThinRaggedMasks n masks).length = masks.length) ∧
      (∀ (n : Nat) (m : Mask), allOffB (iterOp erodeOnce n m) = true →
        allOffB (openingOf n m) = true) := by
  refine ⟨filterThinRaggedMasks_eq_map, ?_, ?_⟩
  · intro n masks
    rw [filterThinRaggedMasks_eq_map, List.length_map]
  · intro n m h
    unfold openingOf
    exact allOffB_iterOp_dilate n h

/-- Witness for C4: the thin mask is erased by the erosion and its opening is
all-off. -/
theorem filter_thin_ragged_masks_opening_witness :
    allOffB (iterOp erodeOnce 5 thinMask) = true ∧
      allOffB (openingOf 5 thinMask) = true :=
  ⟨by decide, filter_thin_ragged_masks_opening.2.2 5 thinMask (by decide)⟩

/-! ### C5 : containment removal -/

theorem zipWith_and_self (row : List Bool) : List.zipWith and row row = row := by
  induction row with
  | nil => rfl
  | cons b bs ih =>
    show (b && b) :: List.zipWith and bs bs = b :: bs
    rw [Bool.and_self, ih]

theorem maskAnd_self (m : Mask) : maskAnd m m = m := by
  unfold maskAnd
  induction m with
  | nil => rfl
  | cons row rest ih =>
    show List.zipWith and row row :: List.zipWith _ rest rest = row :: rest
    rw [zipWith_and_self]
    exact congrArg _ ih

theorem containedInAnother_iff (ms : List Mask) (i : Nat) :
    containedInAnother ms i = true ↔
      ∃ j, j < ms.length ∧ j ≠ i ∧ maskAnd (ms.getD i []) (ms.getD j []) = ms.getD i [] := by
  unfold containedInAnother
  rw [List.any_eq_true]
  constructor
  · rintro ⟨j, hj, hcond⟩
    rw [Bool.and_eq_true, decide_eq_true_eq, decide_eq_true_eq] at hcond
    exact ⟨j, List.mem_range.mp hj, hcond.1, hcond.2⟩
  · rintro ⟨j, hj, hne, heq⟩
    refine ⟨j, List.mem_range.mpr hj, ?_⟩
    rw [Bool.and_eq_true, decide_eq_true_eq, decide_eq_true_eq]
    exact ⟨hne, heq⟩

theorem mem_removeContainedMasks {ms : List Mask} {m : Mask} :
    m ∈ removeContainedMasks ms ↔
      ∃ i, i < ms.length ∧ containedInAnother ms i = false ∧ ms.getD i [] = m := by
  rw [removeContainedMasks_eq_filterMap]
  unfold notContainedFilter
  rw [List.mem_filterMap]
  constructor
  · rintro ⟨i, hi, hif⟩
    by_cases hc : containedInAnother ms i = true
    · rw [if_pos hc] at hif
      cases hif
    · rw [if_neg hc] at hif
      exact ⟨i, List.mem_range.mp hi, Bool.eq_false_iff.mpr hc, Option.some.inj hif⟩
  · rintro ⟨i, hi, hc, heq⟩
    refine ⟨i, List.mem_range.mpr hi, ?_⟩
    rw [if_neg (by rw [hc]; exact Bool.false_ne_true), heq]

/-- C5 counterexample: two identical nonempty masks mutually contain each
other, so the containment stage drops BOTH of them — the claim that the tie
is resolved by iteration order with one of the pair retained is false. -/
theorem identical_masks_both_dropped_cex :
    removeContainedMasks [full3, full3] = [] ∧ allOffB full3 = false := by
  refine ⟨by decide, by decide⟩

/-- C5 (amended): a size-filtered mask `i` is dropped exactly when some
`j ≠ i` satisfies `mask_i AND mask_j == mask_i`; consequently no two
surviving masks of `refine_masks` are in (even non-strict) containment
unless they are equal — in particular no survivor is a strict pixel-subset
of another — and two identical size-filtered masks are BOTH dropped (mutual
containment; there is no iteration-order tie-break retaining one). -/
theorem refine_masks_containment :
    (∀ (ms : List Mask) (i : Nat), containedInAnother ms i = true ↔
        ∃ j, j < ms.length ∧ j ≠ i ∧ maskAnd (ms.getD i []) (ms.getD j []) = ms.getD i []) ∧
      (∀ ms : List Mask, removeContainedMasks ms = notContainedFilter ms) ∧
      (∀ (ms : List Mask) (a b : Mask), a ∈ refineMasks ms → b ∈ refineMasks ms →
        maskAnd a b = a → a = b) ∧
      (∀ m : Mask, removeContainedMasks [m, m] = []) := by
  refine ⟨containedInAnother_iff, removeContainedMasks_eq_filterMap, ?_, ?_⟩
  · intro ms a b ha hb hab
    unfold refineMasks at ha hb
    rcases mem_removeContainedMasks.mp ha with ⟨i, hi, hci, hgi⟩
    rcases mem_removeContainedMasks.mp hb with ⟨j, hj, hcj, hgj⟩
    by_contra hne
    have hij : j ≠ i := by
      intro hc
      subst hc
      exact hne (hgi.symm.trans hgj)
    have hcon : containedInAnother
        (filterMasksBySize 15 15 ((filterThinRaggedMasks 5 (removeBorderMasks 5 ms)).map fillHoles)) i = true := by
      refine (containedInAnother_iff _ i).mpr ⟨j, hj, hij, ?_⟩
      rw [hgi, hgj]
      exact hab
    rw [hci] at hcon
    cases hcon
  · intro m
    have hlen : ([m, m] : List Mask).length = 2 := rfl
    have hc0 : containedInAnother [m, m] 0 = true := by
      refine (containedInAnother_iff [m, m] 0).mpr ⟨1, by omega, by omega, ?_⟩
      exact maskAnd_self m
    have hc1 : containedInAnother [m, m] 1 = true := by
      refine (containedInAnother_iff [m, m] 1).mpr ⟨0, by omega, by omega, ?_⟩
      exact maskAnd_self m
    unfold removeContainedMasks
    have hr : List.range ([m, m] : List Mask).length = [0, 1] := rfl
    rw [hr, List.foldl, if_pos hc0, List.foldl, if_pos hc1, List.foldl]

/-- Witness for C5: the surviving mask of `refine_masks [full15]` is in
(reflexive) containment only with itself, and the theorem concludes the two
members are equal. -/
theorem refine_masks_containment_witness :
    full15 ∈ refineMasks [full15] ∧ maskAnd full15 full15 = full15 ∧ full15 = full15 :=
  ⟨full15_mem_refineMasks, maskAnd_self full15,
    refine_masks_containment.2.2.1 [full15] full15 full15
      full15_mem_refineMasks full15_mem_refineMasks (maskAnd_self full15)⟩

/-! ### C6 : the border invariant -/

theorem getD_mem_take {α : Type} {l : List α} {d : α} {i t : Nat}
    (hi : i < l.length) (hit : i < t) : l.getD i d ∈ l.take t := by
  have hlen : i < (l.take t).length := by
    rw [List.length_take]
    omega
  rw [List.getD_eq_getElem l d hi, ← List.getElem_take l]
  exact List.getElem_mem hlen

theorem getD_mem_drop {α : Type} {l : List α} {d : α} {i k : Nat}
    (hi : i < l.length) (hk : k ≤ i) : l.getD i d ∈ l.drop k := by
  have hlen : i - k < (l.drop k).length := by
    rw [List.length_drop]
    omega
  refine List.mem_iff_getElem.mpr ⟨i - k, hlen, ?_⟩
  rw [List.getElem_drop l, List.getD_eq_getElem l d hi]
  simp only [show k + (i - k) = i from by omega]

instance instDecIsRect (m : Mask) : Decidable (IsRect m) :=
  inferInstanceAs (Decidable (∀ row ∈ m, row.length = mWidth m))

/-- A cell of the mask is an element of its row. -/
theorem cell_mem_row {m : Mask} {r c : Nat} (hc : c < (m.getD r []).length) :
    (m.getD r []).getD c false ∈ m.getD r [] := by
  rw [List.getD_eq_getElem _ _ hc]
  exact List.getElem_mem hc

/-- Members of the `remove_border_masks` output satisfy the geometric border
invariant (the first half of C6; the refinement half builds on it below). -/
theorem removeBorder_band_aux :
    ∀ (tp : ℚ) (masks : List Mask) (m : Mask),
      m ∈ removeBorderMasks tp masks → IsRect m →
      closeToAllBordersSpec tp m = false := by
  intro tp masks m hm hrect
  rw [removeBorderMasks_eq_filter, List.mem_filter] at hm
  have hcode : isCloseToAllBorders tp m = false := by
    have h2 := hm.2
    rw [Bool.not_eq_true'] at h2
    exact h2
  by_contra hspec
  rw [Bool.not_eq_false] at hspec
  unfold closeToAllBordersSpec at hspec
  simp only [Bool.and_eq_true, List.any_eq_true, decide_eq_true_eq] at hspec
  obtain ⟨⟨⟨⟨p1, hp1m, hp1⟩, p2, hp2m, hp2⟩, p3, hp3m, hp3⟩, p4, hp4m, hp4⟩ := hspec
  obtain ⟨hr1, hc1, hcell1⟩ := mem_onCoords.mp hp1m
  obtain ⟨hr2, hc2, hcell2⟩ := mem_onCoords.mp hp2m
  obtain ⟨hr3, hc3, hcell3⟩ := mem_onCoords.mp hp3m
  obtain ⟨hr4, hc4, hcell4⟩ := mem_onCoords.mp hp4m
  have htop : ((m.take (borderThreshold tp (mHeight m))).any fun row => row.any id) = true := by
    rw [List.any_eq_true]
    refine ⟨m.getD p1.1 [], getD_mem_take hr1 hp1, ?_⟩
    rw [List.any_eq_true]
    exact ⟨_, cell_mem_row hc1, hcell1⟩
  have hbot : ((pySliceLast (borderThreshold tp (mHeight m)) m).any fun row => row.any id) = true := by
    have ht0 : borderThreshold tp (mHeight m) ≠ 0 := by
      intro hz
      rw [hz] at hp2
      unfold mHeight at hp2
      omega
    unfold pySliceLast
    rw [if_neg ht0, List.any_eq_true]
    refine ⟨m.getD p2.1 [], getD_mem_drop hr2 (by unfold mHeight at hp2 ⊢; omega), ?_⟩
    rw [List.any_eq_true]
    exact ⟨_, cell_mem_row hc2, hcell2⟩
  have hleft : (m.any fun row => (row.take (borderThreshold tp (mWidth m))).any id) = true := by
    rw [List.any_eq_true]
    refine ⟨m.getD p3.1 [], getD_mem_of_lt m [] hr3, ?_⟩
    rw [List.any_eq_true]
    exact ⟨_, getD_mem_take hc3 hp3, hcell3⟩
  have hright : (m.any fun row => (pySliceLast (borderThreshold tp (mWidth m)) row).any id) = true := by
    have hwr : (m.getD p4.1 []).length = mWidth m := hrect _ (getD_mem_of_lt m [] hr4)
    have ht0 : borderThreshold tp (mWidth m) ≠ 0 := by
      intro hz
      rw [hz] at hp4
      omega
    rw [List.any_eq_true]
    refine ⟨m.getD p4.1 [], getD_mem_of_lt m [] hr4, ?_⟩
    unfold pySliceLast
    rw [if_neg ht0, List.any_eq_true]
    refine ⟨_, getD_mem_drop hc4 (by omega), hcell4⟩
  have htrue : isCloseToAllBorders tp m = true := by
    unfold isCloseToAllBorders
    show (((((m.take (borderThreshold tp (mHeight m))).any fun row => row.any id) &&
        ((pySliceLast (borderThreshold tp (mHeight m)) m).any fun row => row.any id)) &&
        (m.any fun row => (row.take (borderThreshold tp (mWidth m))).any id)) &&
        (m.any fun row => (pySliceLast (borderThreshold tp (mWidth m)) row).any id)) = true
    rw [htop, hbot, hleft, hright]
    rfl
  rw [hcode] at htrue
  cases htrue

/-! ### C9 : calculate_bounding_boxes with empty masks -/

theorem calculateBoundingBoxes_eq_map (masks : List Mask) :
    calculateBoundingBoxes masks = (masks.map bboxOf, masks.map centroidOf) := by
  unfold calculateBoundingBoxes
  suffices h : ∀ (ms : List Mask) (acc1 : List (Option BBoxQ)) (acc2 : List (Option (ℚ × ℚ))),
      ms.foldl (fun acc mask => (acc.1 ++ [bboxOf mask], acc.2 ++ [centroidOf mask])) (acc1, acc2) =
        (acc1 ++ ms.map bboxOf, acc2 ++ ms.map centroidOf) by
    simpa using h masks [] []
  intro ms
  induction ms with
  | nil => intro acc1 acc2; simp
  | cons m rest ih =>
    intro acc1 acc2
    show rest.foldl _ (acc1 ++ [bboxOf m], acc2 ++ [centroidOf m]) = _
    rw [ih]
    simp

theorem getD_map_lt {α β : Type} (f : α → β) (l : List α) (dflt : β) (d : α) {i : Nat}
    (h : i < l.length) : (l.map f).getD i dflt = f (l.getD i d) := by
  have h2 : i < (l.map f).length := by simpa using h
  rw [List.getD_eq_getElem _ _ h2, List.getElem_map, List.getD_eq_getElem _ _ h]

/-- C9: `calculate_bounding_boxes` is total (it never raises): it maps each
mask independently to a bounding box and centroid — an empty mask yields the
sentinel pair (`none` models the empty dict and the `(nan, nan)` centroid),
a nonempty mask the ordinary values (`max − min` convention), and the result
at one index depends only on the mask at that index. -/
theorem calculate_bounding_boxes_sentinels :
    (∀ masks : List Mask,
        calculateBoundingBoxes masks = (masks.map bboxOf, masks.map centroidOf)) ∧
      (∀ masks : List Mask, (calculateBoundingBoxes masks).1.length = masks.length ∧
        (calculateBoundingBoxes masks).2.length = masks.length) ∧
      (∀ m : Mask, onCoords m = [] → bboxOf m = none ∧ centroidOf m = none) ∧
      (∀ m : Mask, onCoords m ≠ [] →
        bboxOf m = some ⟨(minOf (onRows m) : ℚ), (minOf (onCols m) : ℚ),
            ((maxOf (onRows m) - minOf (onRows m) : Nat) : ℚ),
            ((maxOf (onCols m) - minOf (onCols m) : Nat) : ℚ)⟩ ∧
        centroidOf m = some
          ((minOf (onCols m) : ℚ) + ((maxOf (onCols m) - minOf (onCols m) : Nat) : ℚ) / 2,
           (minOf (onRows m) : ℚ) + ((maxOf (onRows m) - minOf (onRows m) : Nat) : ℚ) / 2)) ∧
      (∀ (ms1 ms2 : List Mask) (i j : Nat), i < ms1.length → j < ms2.length →
        ms1.getD i [] = ms2.getD j [] →
        (calculateBoundingBoxes ms1).1.getD i none = (calculateBoundingBoxes ms2).1.getD j none ∧
        (calculateBoundingBoxes ms1).2.getD i none = (calculateBoundingBoxes ms2).2.getD j none) := by
  have hempty : ∀ m : Mask, onCoords m = [] → (onRows m).isEmpty = true := by
    intro m h
    unfold onRows
    rw [h]
    rfl
  have hnonempty : ∀ m : Mask, onCoords m ≠ [] → ¬(onRows m).isEmpty = true := by
    intro m h hc
    rw [List.isEmpty_iff] at hc
    unfold onRows at hc
    exact h (List.map_eq_nil_iff.mp hc)
  refine ⟨calculateBoundingBoxes_eq_map, ?_, ?_, ?_, ?_⟩
  · intro masks
    rw [calculateBoundingBoxes_eq_map]
    simp
  · intro m h
    unfold bboxOf centroidOf
    rw [if_pos (hempty m h), if_pos (hempty m h)]
    exact ⟨rfl, rfl⟩
  · intro m h
    unfold bboxOf centroidOf
    rw [if_neg (hnonempty m h), if_neg (hnonempty m h)]
    exact ⟨rfl, rfl⟩
  · intro ms1 ms2 i j hi hj heq
    rw [calculateBoundingBoxes_eq_map, calculateBoundingBoxes_eq_map]
    refine ⟨?_, ?_⟩
    · rw [getD_map_lt bboxOf ms1 none [] hi, getD_map_lt bboxOf ms2 none [] hj, heq]
    · rw [getD_map_lt centroidOf ms1 none [] hi, getD_map_lt centroidOf ms2 none [] hj, heq]

/-- Witness for C9: an all-off 3×3 mask gets the sentinels, the all-on 3×3
mask its ordinary box and centroid. -/
theorem calculate_bounding_boxes_sentinels_witness :
    (bboxOf (emptyLike full3) = none ∧ centroidOf (emptyLike full3) = none) ∧
      bboxOf full3 = some ⟨(minOf (onRows full3) : ℚ), (minOf (onCols full3) : ℚ),
          ((maxOf (onRows full3) - minOf (onRows full3) : Nat) : ℚ),
          ((maxOf (onCols full3) - minOf (onCols full3) : Nat) : ℚ)⟩ :=
  ⟨calculate_bounding_boxes_sentinels.2.2.1 (emptyLike full3) (by decide),
    (calculate_bounding_boxes_sentinels.2.2.2.1 full3 (by decide)).1⟩

/-! ### C10 : extract_masked_images and empty masks -/

theorem rowAnyIdxs_eq_nil_iff (m : Mask) : rowAnyIdxs m = [] ↔ onCoords m = [] := by
  unfold rowAnyIdxs
  rw [List.filter_eq_nil_iff]
  constructor
  · intro h
    by_contra hne
    match hoc : onCoords m with
    | [] => exact hne hoc
    | p :: ps =>
      have hp : (p.1, p.2) ∈ onCoords m := by
        rw [hoc]
        exact Prod.mk.eta ▸ List.mem_cons_self p ps
      obtain ⟨hr, hc, hcell⟩ := mem_onCoords.mp hp
      apply h p.1 (List.mem_range.mpr hr)
      rw [List.any_eq_true]
      exact ⟨_, cell_mem_row hc, hcell⟩
  · intro h r hrmem hany
    rw [List.any_eq_true] at hany
    obtain ⟨b, hbmem, hb⟩ := hany
    obtain ⟨c, hc, hbc⟩ := List.mem_iff_getElem.mp hbmem
    have hcell : cellB m r c = true := by
      unfold cellB
      rw [List.getD_eq_getElem _ _ hc, hbc]
      exact hb
    have hmem : (r, c) ∈ onCoords m :=
      mem_onCoords.mpr ⟨List.mem_range.mp hrmem, hc, hcell⟩
    rw [h] at hmem
    cases hmem

/-- C10: a mask with zero on pixels makes `extract_masked_images` raise (the
`IndexError` from indexing the empty row-index array) rather than produce a
region image or sentinel; an empty mask LIST returns an empty result without
error; and a successful call certifies that every mask had at least one on
pixel (and yields one region image per mask). -/
theorem extract_masked_images_empty_mask :
    (∀ img : RawImage, extractMaskedImages img [] = Except.ok []) ∧
      (∀ (img : RawImage) (masks : List Mask), (∃ m ∈ masks, onCoords m = []) →
        ∃ e, extractMaskedImages img masks = Except.error e) ∧
      (∀ (img : RawImage) (masks : List Mask) (out : List RawImage),
        extractMaskedImages img masks = Except.ok out →
        (∀ m ∈ masks, onCoords m ≠ []) ∧ out.length = masks.length) := by
  have hcropErr : ∀ (img : RawImage) (m : Mask), onCoords m = [] →
      cropMaskedImage img m = Except.error "IndexError: index 0 is out of bounds" := by
    intro img m h
    unfold cropMaskedImage
    rw [if_pos (by rw [List.isEmpty_iff]; exact (rowAnyIdxs_eq_nil_iff m).mpr h)]
  have hcropOk : ∀ (img : RawImage) (m : Mask) (im : RawImage),
      cropMaskedImage img m = Except.ok im → onCoords m ≠ [] := by
    intro img m im h hc
    rw [hcropErr img m hc] at h
    cases h
  refine ⟨fun img => rfl, ?_, ?_⟩
  · intro img masks
    induction masks with
    | nil =>
      rintro ⟨m, hm, -⟩
      cases hm
    | cons m0 rest ih =>
      rintro ⟨m, hm, hmc⟩
      rcases List.mem_cons.mp hm with h | h
      · subst h
        refine ⟨"IndexError: index 0 is out of bounds", ?_⟩
        show (match cropMaskedImage img m with
          | Except.error e => Except.error e
          | Except.ok im =>
            match extractMaskedImages img rest with
            | Except.error e => Except.error e
            | Except.ok ims => Except.ok (im :: ims)) = _
        rw [hcropErr img m hmc]
      · match hc : cropMaskedImage img m0 with
        | Except.error e =>
          refine ⟨e, ?_⟩
          show (match cropMaskedImage img m0 with
            | Except.error e => Except.error e
            | Except.ok im =>
              match extractMaskedImages img rest with
              | Except.error e => Except.error e
              | Except.ok ims => Except.ok (im :: ims)) = _
          rw [hc]
        | Except.ok im =>
          obtain ⟨e, he⟩ := ih ⟨m, h, hmc⟩
          refine ⟨e, ?_⟩
          show (match cropMaskedImage img m0 with
            | Except.error e => Except.error e
            | Except.ok im =>
              match extractMaskedImages img rest with
              | Except.error e => Except.error e
              | Except.ok ims => Except.ok (im :: ims)) = _
          rw [hc, he]
  · intro img masks
    induction masks with
    | nil =>
      intro out h
      have hout : out = [] := (Except.ok.inj h).symm
      subst hout
      exact ⟨fun m hm => absurd hm (List.not_mem_nil m), rfl⟩
    | cons m0 rest ih =>
      intro out h
      have h2 : (match cropMaskedImage img m0 with
        | Except.error e => Except.error e
        | Except.ok im =>
          match extractMaskedImages img rest with
          | Except.error e => Except.error e
          | Except.ok ims => Except.ok (im :: ims)) = Except.ok out := h
      match hc : cropMaskedImage img m0 with
      | Except.error e =>
        rw [hc] at h2
        cases h2
      | Except.ok im =>
        rw [hc] at h2
        match hrec : extractMaskedImages img rest with
        | Except.error e =>
          rw [hrec] at h2
          cases h2
        | Except.ok ims =>
          rw [hrec] at h2
          have hout : out = im :: ims := (Except.ok.inj h2).symm
          obtain ⟨hall, hlen⟩ := ih ims hrec
          subst hout
          refine ⟨?_, by simp [hlen]⟩
          intro m hm
          rcases List.mem_cons.mp hm with h1 | h1
          · subst h1
            exact hcropOk img m im hc
          · exact hall m h1

/-- Witness for C10: a single all-off 3×3 mask raises; the empty mask list
returns an empty result. -/
theorem extract_masked_images_empty_mask_witness :
    (∃ e, extractMaskedImages [[[1]]] [emptyLike full3] = Except.error e) ∧
      extractMaskedImages [[[1]]] [] = Except.ok [] :=
  ⟨extract_masked_images_empty_mask.2.1 [[[1]]] [emptyLike full3]
      ⟨emptyLike full3, List.mem_singleton.mpr rfl, by decide⟩,
    extract_masked_images_empty_mask.1 [[[1]]]⟩

/-! ### C7 : one mask per unique color -/

theorem getMasks_eq_map (img : RawImage) :
    getMasksFromSegmentedImage img =
      (uniqueColors (stripAlpha img)).map (maskOfColor (stripAlpha img)) := by
  unfold getMasksFromSegmentedImage
  rw [foldl_append_map]
  rfl

theorem mem_uniqueColors {img : RawImage} {c : List Nat} :
    c ∈ uniqueColors img ↔ c ∈ flatPixels img := by
  unfold uniqueColors
  rw [List.mem_insertionSort, List.mem_dedup]

theorem nodup_uniqueColors (img : RawImage) : (uniqueColors img).Nodup := by
  unfold uniqueColors
  exact (List.perm_insertionSort _ _).nodup_iff.mpr (List.nodup_dedup _)

theorem length_uniqueColors (img : RawImage) :
    (uniqueColors img).length = (flatPixels img).dedup.length := by
  unfold uniqueColors
  exact List.length_insertionSort _ _

theorem cellB_maskOfColor (img : RawImage) (color : List Nat) {r i : Nat}
    (hr : r < img.length) (hi : i < (img.getD r []).length) :
    cellB (maskOfColor img color) r i = decide ((img.getD r []).getD i [] = color) := by
  unfold cellB maskOfColor
  rw [getD_map_lt _ img [] [] hr, getD_map_lt _ (img.getD r []) false [] hi]

theorem exists_pos_of_mem_flat {img : RawImage} {c : List Nat} (h : c ∈ flatPixels img) :
    ∃ r i, ∃ (hr : r < img.length) (hi : i < (img.getD r []).length),
      (img.getD r []).getD i [] = c := by
  unfold flatPixels at h
  rw [List.mem_flatten] at h
  obtain ⟨row, hrow, hc⟩ := h
  obtain ⟨r, hr, hrowEq⟩ := List.mem_iff_getElem.mp hrow
  obtain ⟨i, hi, hceq⟩ := List.mem_iff_getElem.mp hc
  have hrow2 : img.getD r [] = row := by
    rw [List.getD_eq_getElem _ _ hr]
    exact hrowEq
  refine ⟨r, i, hr, by rw [hrow2]; exact hi, ?_⟩
  have hi2 : i < (img.getD r []).length := by rw [hrow2]; exact hi
  rw [List.getD_eq_getElem _ _ hi2]
  have : (img.getD r [])[i] = row[i] := by
    congr 1
  rw [this, hceq]

theorem maskOfColor_inj {img : RawImage} {c1 c2 : List Nat}
    (h1 : c1 ∈ flatPixels img) (heq : maskOfColor img c1 = maskOfColor img c2) :
    c1 = c2 := by
  obtain ⟨r, i, hr, hi, hpix⟩ := exists_pos_of_mem_flat h1
  have e1 := cellB_maskOfColor img c1 hr hi
  have e2 := cellB_maskOfColor img c2 hr hi
  rw [heq] at e1
  have e3 : decide ((img.getD r []).getD i [] = c1) =
      decide ((img.getD r []).getD i [] = c2) := e1.symm.trans e2
  rw [hpix] at e3
  simp only [decide_eq_true_eq, decide_eq_decide] at e3
  exact e3.mp trivial

theorem nodup_all_eq_singleton {α : Type} {l : List α} {c : α}
    (hnd : l.Nodup) (hne : l ≠ []) (hall : ∀ x ∈ l, x = c) : l = [c] := by
  match l with
  | [] => exact absurd rfl hne
  | [x] =>
    rw [hall x (List.mem_cons_self x [])]
  | x :: y :: rest =>
    have hx : x = c := hall x (by simp)
    have hy : y = c := hall y (by simp)
    rw [List.nodup_cons] at hnd
    exact absurd (by rw [hx, ← hy]; simp) hnd.1

/-- C7: `get_masks_from_segmented_image` produces exactly one mask per
distinct RGB color present (alpha, when the image has 4 channels, is
stripped before comparison): the mask list has the length of the distinct
color list and no duplicates, every present color contributes its mask
(spatially disjoint areas of one color are one mask, since extraction is by
color only), each mask is true exactly at the pixels of its color, and a
single-color image yields exactly one all-true mask. -/
theorem get_masks_one_per_color (img : RawImage)
    (hpix : flatPixels (stripAlpha img) ≠ [])
    (_hch : channelCount img = 3 ∨ channelCount img = 4) :
    (getMasksFromSegmentedImage img).length = (flatPixels (stripAlpha img)).dedup.length ∧
      (getMasksFromSegmentedImage img).Nodup ∧
      (∀ c ∈ flatPixels (stripAlpha img),
        maskOfColor (stripAlpha img) c ∈ getMasksFromSegmentedImage img) ∧
      (∀ (c : List Nat) (r i : Nat), r < (stripAlpha img).length →
        i < ((stripAlpha img).getD r []).length →
        cellB (maskOfColor (stripAlpha img) c) r i =
          decide (((stripAlpha img).getD r []).getD i [] = c)) ∧
      (∀ c : List Nat, (∀ p ∈ flatPixels (stripAlpha img), p = c) →
        getMasksFromSegmentedImage img =
          [(stripAlpha img).map fun row => row.map fun _ => true]) := by
  refine ⟨?_, ?_, ?_, ?_, ?_⟩
  · rw [getMasks_eq_map, List.length_map, length_uniqueColors]
  · rw [getMasks_eq_map]
    refine List.Nodup.map_on ?_ (nodup_uniqueColors _)
    intro c1 hc1 c2 hc2 heq
    exact maskOfColor_inj (mem_uniqueColors.mp hc1) heq
  · intro c hc
    rw [getMasks_eq_map]
    exact List.mem_map_of_mem _ (mem_uniqueColors.mpr hc)
  · intro c r i hr hi
    exact cellB_maskOfColor _ c hr hi
  · intro c hall
    rw [getMasks_eq_map]
    have huniq : uniqueColors (stripAlpha img) = [c] := by
      apply nodup_all_eq_singleton (nodup_uniqueColors _)
      · intro hc0
        match hflat : flatPixels (stripAlpha img) with
        | [] => exact hpix hflat
        | p :: ps =>
          have hmem : p ∈ uniqueColors (stripAlpha img) := by
            refine mem_uniqueColors.mpr ?_
            rw [hflat]
            exact List.mem_cons_self p ps
          rw [hc0] at hmem
          cases hmem
      · intro x hx
        exact hall x (mem_uniqueColors.mp hx)
    rw [huniq]
    show [maskOfColor (stripAlpha img) c] = _
    congr 1
    unfold maskOfColor
    apply List.map_congr_left
    intro row hrow
    apply List.map_congr_left
    intro p hp
    have hpc : p = c := by
      apply hall
      unfold flatPixels
      rw [List.mem_flatten]
      exact ⟨row, hrow, hp⟩
    rw [hpc]
    simp

/-- Witness for C7: the sample 2×2 two-color image yields exactly two
distinct masks. -/
theorem get_masks_one_per_color_witness :
    (getMasksFromSegmentedImage sampleSegImg).length = 2 ∧
      (getMasksFromSegmentedImage sampleSegImg).Nodup := by
  have h := get_masks_one_per_color sampleSegImg (by decide) (Or.inl (by decide))
  refine ⟨?_, h.2.1⟩
  rw [h.1]
  decide

/-! ### C1 : the grouping pass raises NameError (typo at vision.py:510) -/

/-- C1: evaluating the code at the spec scenario B (two identical 20×20
region images with SSIM 1.0 and one 5×5 image, `min_ssim = 0.95`,
`size_similarity_threshold = 0.9`): instead of returning the group `[0, 1]`
with ungrouped `[2]`, the grouping pass raises `NameError` the moment the
pair `(0, 1)` passes the SSIM test, because vision.py:510 compares against
the misspelled name `size_similarity_thresholdi`. -/
theorem get_similar_image_idxs_scenarioB_raises :
    getSimilarImageIdxs [(20, 20), (20, 20), (5, 5)] (fun _ _ => 1) (19 / 20) (9 / 10) true =
      Except.error nameErrorMsg := by
  norm_num [getSimilarImageIdxs, outerScan, innerScan, ssimEntry, sizeSimDims,
    getSizeSimilarity, optGe, List.range_succ]

/-! ### C2 : no ConfigurationError, no validation -/

theorem innerScan_error_msg (ssimM : Nat → Nat → Option ℚ) (minS : ℚ) (i : Nat) :
    ∀ (js group already : List Nat) (e : String),
      innerScan ssimM minS i js group already = Except.error e → e = nameErrorMsg := by
  intro js
  induction js with
  | nil =>
    intro group already e h
    cases h
  | cons j rest ih =>
    intro group already e h
    unfold innerScan at h
    by_cases h1 : j ∈ already
    · rw [if_pos h1] at h
      exact ih group already e h
    · rw [if_neg h1] at h
      by_cases h2 : optGe (ssimM i j) minS = true
      · rw [if_pos h2] at h
        exact (Except.error.inj h).symm
      · rw [if_neg h2] at h
        exact ih group already e h

theorem outerScan_error_msg (ssimM : Nat → Nat → Option ℚ) (minS : ℚ) (n : Nat) :
    ∀ (is : List Nat) (groups : List (List Nat)) (already : List Nat) (e : String),
      outerScan ssimM minS n is groups already = Except.error e → e = nameErrorMsg := by
  intro is
  induction is with
  | nil =>
    intro groups already e h
    cases h
  | cons i rest ih =>
    intro groups already e h
    unfold outerScan at h
    by_cases h1 : i ∈ already
    · rw [if_pos h1] at h
      exact ih _ _ e h
    · rw [if_neg h1] at h
      match hinner : innerScan ssimM minS i ((List.range n).drop (i + 1)) [i] already with
      | Except.error e2 =>
        rw [hinner] at h
        rw [← Except.error.inj h]
        exact innerScan_error_msg ssimM minS i _ [i] already e2 hinner
      | Except.ok (group, already2) =>
        rw [hinner] at h
        exact ih _ _ e h

/-- C2 counterexample: with `min_ssim = 2` (outside `[−1, 1]`) and
`size_similarity_threshold = 2` (outside `[0, 1]`) the call returns normally
with its usual result — no `ConfigurationError` is raised. -/
theorem get_similar_image_idxs_no_config_error_cex :
    getSimilarImageIdxs [(5, 5)] (fun _ _ => 0) 2 2 true =
      Except.ok ([], [], [[some 1]], [[1]]) := rfl

/-- C2 (amended): `get_similar_image_idxs` performs no validation of its
thresholds and no `ConfigurationError` exists in the code: the only
exception the function can raise (for images of positive dimensions) is the
`NameError` of the misspelled threshold in the grouping pass; out-of-range
thresholds are accepted, and empty or singleton inputs return normally
whatever the thresholds are. -/
theorem get_similar_image_idxs_no_validation :
    (∀ (dims : List Dims) (ssimF : Nat → Nat → ℚ) (minSsim sizeThr : ℚ) (sc : Bool)
        (e : String), (∀ p ∈ dims, 0 < p.1 ∧ 0 < p.2) →
        getSimilarImageIdxs dims ssimF minSsim sizeThr sc = Except.error e →
        e = nameErrorMsg) ∧
      (∀ (ssimF : Nat → Nat → ℚ) (minSsim sizeThr : ℚ) (sc : Bool),
        getSimilarImageIdxs [] ssimF minSsim sizeThr sc = Except.ok ([], [], [], [])) ∧
      (∀ (d : Dims) (ssimF : Nat → Nat → ℚ) (minSsim sizeThr : ℚ) (sc : Bool),
        getSimilarImageIdxs [d] ssimF minSsim sizeThr sc =
          Except.ok ([], [], [[some 1]], [[1]])) := by
  refine ⟨?_, ?_, ?_⟩
  · intro dims ssimF minS thr sc e hpos h
    simp only [getSimilarImageIdxs] at h
    match hout : outerScan (ssimEntry dims ssimF thr sc) minS dims.length
        (List.range dims.length) [] [] with
    | Except.error e2 =>
      rw [hout] at h
      rw [← Except.error.inj h]
      exact outerScan_error_msg _ _ _ _ _ _ e2 hout
    | Except.ok (groups, already) =>
      rw [hout] at h
      cases h
  · intro ssimF minS thr sc
    rfl
  · intro d ssimF minS thr sc
    rfl

/-- Witness for C2: a concrete pair of 1×1 images with SSIM 1 triggers the
only possible exception, and the theorem identifies it as the NameError. -/
theorem get_similar_image_idxs_no_validation_witness :
    getSimilarImageIdxs [(1, 1), (1, 1)] (fun _ _ => 1) 0 0 true =
        Except.error nameErrorMsg ∧
      nameErrorMsg = nameErrorMsg := by
  have herr : getSimilarImageIdxs [(1, 1), (1, 1)] (fun _ _ => 1) 0 0 true =
      Except.error nameErrorMsg := by
    norm_num [getSimilarImageIdxs, outerScan, innerScan, ssimEntry, sizeSimDims,
      getSizeSimilarity, optGe, List.range_succ]
  exact ⟨herr,
    get_similar_image_idxs_no_validation.1 [(1, 1), (1, 1)] (fun _ _ => 1) 0 0 true
      nameErrorMsg (by decide) herr⟩

/-! ### C6, continued: the border invariant survives refinement.
Infrastructure: cell values of the grid-building operations, shapes,
anti-extensivity of the morphological opening, and the flood-fill lower
bound needed for hole filling. -/

theorem cellB_true_bounds {X : Mask} {r c : Nat} (h : cellB X r c = true) :
    r < X.length ∧ c < (X.getD r []).length := by
  unfold cellB at h
  have hr : r < X.length := by
    by_contra hge
    rw [List.getD_eq_default X [] (by omega)] at h
    rw [List.getD_eq_default [] false (by simp)] at h
    cases h
  refine ⟨hr, ?_⟩
  by_contra hge
  rw [List.getD_eq_default _ false (by omega)] at h
  cases h

theorem cellB_rangeMap {H : Nat} (w : Nat → Nat) (f : Nat → Nat → Bool) {r c : Nat}
    (hr : r < H) (hc : c < w r) :
    cellB ((List.range H).map fun i => (List.range (w i)).map fun j => f i j) r c = f r c := by
  unfold cellB
  have hr2 : r < (List.range H).length := by simpa using hr
  rw [getD_map_lt _ (List.range H) [] 0 hr2, List.getD_eq_getElem _ _ hr2,
    List.getElem_range]
  have hc2 : c < (List.range (w r)).length := by simpa using hc
  rw [getD_map_lt _ (List.range (w r)) false 0 hc2, List.getD_eq_getElem _ _ hc2,
    List.getElem_range]

theorem sameShape_rangeMap (m : Mask) (f : Nat → Nat → Bool) :
    SameShape ((List.range m.length).map fun i =>
      (List.range ((m.getD i []).length)).map fun j => f i j) m := by
  constructor
  · simp
  · intro r
    by_cases hr : r < m.length
    · have hr2 : r < (List.range m.length).length := by simpa using hr
      rw [getD_map_lt _ (List.range m.length) [] 0 hr2, List.getD_eq_getElem _ _ hr2,
        List.getElem_range]
      simp
    · rw [List.getD_eq_default _ [] (by simpa using hr),
        List.getD_eq_default m [] (by omega)]

theorem leMask_refl (a : Mask) : leMask a a := fun _ _ h => h

theorem leMask_trans {a b c : Mask} (h1 : leMask a b) (h2 : leMask b c) : leMask a c :=
  fun r cc h => h2 r cc (h1 r cc h)

theorem sameShape_refl (a : Mask) : SameShape a a := ⟨rfl, fun _ => rfl⟩

theorem sameShape_trans {a b c : Mask} (h1 : SameShape a b) (h2 : SameShape b c) :
    SameShape a c :=
  ⟨h1.1.trans h2.1, fun r => (h1.2 r).trans (h2.2 r)⟩

theorem headD_eq_getD_zero {α : Type} (l : List α) (d : α) : l.headD d = l.getD 0 d := by
  cases l <;> rfl

theorem mWidth_eq_of_sameShape {A B : Mask} (h : SameShape A B) : mWidth A = mWidth B := by
  unfold mWidth
  rw [headD_eq_getD_zero, headD_eq_getD_zero]
  exact h.2 0

theorem isRect_of_sameShape {A B : Mask} (hsh : SameShape A B) (hB : IsRect B) :
    IsRect A := by
  intro row hrow
  obtain ⟨r, hr, hre⟩ := List.mem_iff_getElem.mp hrow
  have hrl : row.length = (A.getD r []).length := by
    rw [List.getD_eq_getElem _ _ hr, hre]
  rw [hrl, hsh.2 r, mWidth_eq_of_sameShape hsh]
  have hrB : r < B.length := hsh.1 ▸ hr
  exact hB _ (getD_mem_of_lt B [] hrB)

theorem getCell_false_iff {X : Mask} {r c : Int} :
    getCell X r c false = true ↔
      0 ≤ r ∧ 0 ≤ c ∧ cellB X r.toNat c.toNat = true := by
  unfold getCell cellB
  by_cases h1 : 0 ≤ r ∧ r < (X.length : Int)
  · rw [if_pos h1]
    show (if 0 ≤ c ∧ c < (((X.getD r.toNat []).length : Nat) : Int)
      then (X.getD r.toNat []).getD c.toNat false else false) = true ↔ _
    by_cases h2 : 0 ≤ c ∧ c < (((X.getD r.toNat []).length : Nat) : Int)
    · rw [if_pos h2]
      constructor
      · intro h
        exact ⟨h1.1, h2.1, h⟩
      · intro h
        exact h.2.2
    · rw [if_neg h2]
      constructor
      · intro h
        cases h
      · rintro ⟨hcr, hcc, hcell⟩
        have hb := cellB_true_bounds hcell
        exact absurd ⟨hcc, by omega⟩ h2
  · rw [if_neg h1]
    constructor
    · intro h
      cases h
    · rintro ⟨hcr, hcc, hcell⟩
      have hb := cellB_true_bounds hcell
      exact absurd ⟨hcr, by omega⟩ h1

theorem getCell_true_eq_cellB {X : Mask} {r c : Nat}
    (hr : r < X.length) (hc : c < (X.getD r []).length) :
    getCell X (r : Int) (c : Int) true = cellB X r c := by
  unfold getCell cellB
  rw [if_pos ⟨by positivity, by exact_mod_cast hr⟩]
  show (if 0 ≤ (c : Int) ∧ (c : Int) < ((X.getD ((r : Int)).toNat []).length : Int)
    then (X.getD ((r : Int)).toNat []).getD ((c : Int)).toNat true else true) = _
  rw [Int.toNat_natCast, Int.toNat_natCast]
  rw [if_pos ⟨by positivity, by exact_mod_cast hc⟩]
  rw [List.getD_eq_getElem _ _ hc, List.getD_eq_getElem _ _ hc]

theorem cellB_emptyLike (m : Mask) (r c : Nat) : cellB (emptyLike m) r c = false := by
  unfold emptyLike cellB
  by_cases hr : r < m.length
  · rw [getD_map_lt _ m [] [] hr]
    by_cases hc : c < (m.getD r []).length
    · rw [getD_map_lt _ (m.getD r []) false false hc]
    · rw [List.getD_eq_default _ false (by simpa using hc)]
  · rw [List.getD_eq_default _ [] (by simpa using hr),
      List.getD_eq_default [] false (by simp)]

theorem cellB_erodeOnce (m : Mask) {r c : Nat}
    (hr : r < m.length) (hc : c < (m.getD r []).length) :
    cellB (erodeOnce m) r c =
      (winOffsets.all fun dr => winOffsets.all fun dc =>
        getCell m ((r : Int) + dr) ((c : Int) + dc) true) := by
  unfold erodeOnce
  exact cellB_rangeMap _ _ hr hc

theorem cellB_dilateOnce (m : Mask) {r c : Nat}
    (hr : r < m.length) (hc : c < (m.getD r []).length) :
    cellB (dilateOnce m) r c =
      (winOffsets.any fun dr => winOffsets.any fun dc =>
        getCell m ((r : Int) + dr) ((c : Int) + dc) false) := by
  unfold dilateOnce
  exact cellB_rangeMap _ _ hr hc

theorem sameShape_erodeOnce (m : Mask) : SameShape (erodeOnce m) m := by
  unfold erodeOnce
  exact sameShape_rangeMap m _

theorem sameShape_dilateOnce (m : Mask) : SameShape (dilateOnce m) m := by
  unfold dilateOnce
  exact sameShape_rangeMap m _

theorem sameShape_iterOp (f : Mask → Mask) (hf : ∀ x, SameShape (f x) x) :
    ∀ (n : Nat) (m : Mask), SameShape (iterOp f n m) m := by
  intro n
  induction n with
  | zero => intro m; exact sameShape_refl m
  | succ k ih =>
    intro m
    exact sameShape_trans (ih (f m)) (hf m)

theorem sameShape_openingOf (n : Nat) (m : Mask) : SameShape (openingOf n m) m := by
  unfold openingOf
  exact sameShape_trans (sameShape_iterOp dilateOnce sameShape_dilateOnce n _)
    (sameShape_iterOp erodeOnce sameShape_erodeOnce n m)

theorem neg_mem_winOffsets {d : Int} (h : d ∈ winOffsets) : -d ∈ winOffsets := by
  have h3 : d = -1 ∨ d = 0 ∨ d = 1 := by simpa [winOffsets] using h
  rcases h3 with h3 | h3 | h3 <;> subst h3 <;> decide

theorem leMask_erodeOnce (m : Mask) : leMask (erodeOnce m) m := by
  intro r c h
  have hb := cellB_true_bounds h
  have hsh := sameShape_erodeOnce m
  have hr : r < m.length := hsh.1 ▸ hb.1
  have hc : c < (m.getD r []).length := hsh.2 r ▸ hb.2
  rw [cellB_erodeOnce m hr hc, List.all_eq_true] at h
  have h0 := h 0 (by decide)
  rw [List.all_eq_true] at h0
  have h00 := h0 0 (by decide)
  have hcenter : getCell m (r : Int) (c : Int) true = true := by
    have he1 : (r : Int) + 0 = (r : Int) := by ring
    have he2 : (c : Int) + 0 = (c : Int) := by ring
    rw [he1, he2] at h00
    exact h00
  rw [getCell_true_eq_cellB hr hc] at hcenter
  exact hcenter

theorem dilateOnce_mono {A B : Mask} (hle : leMask A B) (hsh : SameShape A B) :
    leMask (dilateOnce A) (dilateOnce B) := by
  intro r c h
  have hb := cellB_true_bounds h
  have hshA := sameShape_dilateOnce A
  have hrA : r < A.length := hshA.1 ▸ hb.1
  have hcA : c < (A.getD r []).length := hshA.2 r ▸ hb.2
  have hrB : r < B.length := hsh.1 ▸ hrA
  have hcB : c < (B.getD r []).length := hsh.2 r ▸ hcA
  rw [cellB_dilateOnce A hrA hcA, List.any_eq_true] at h
  rw [cellB_dilateOnce B hrB hcB, List.any_eq_true]
  obtain ⟨dr, hdr, hin⟩ := h
  refine ⟨dr, hdr, ?_⟩
  rw [List.any_eq_true] at hin ⊢
  obtain ⟨dc, hdc, hget⟩ := hin
  refine ⟨dc, hdc, ?_⟩
  rw [getCell_false_iff] at hget ⊢
  exact ⟨hget.1, hget.2.1, hle _ _ hget.2.2⟩

theorem leMask_dilate_erode (X : Mask) : leMask (dilateOnce (erodeOnce X)) X := by
  intro r c h
  have hb := cellB_true_bounds h
  have hshD := sameShape_dilateOnce (erodeOnce X)
  have hshE := sameShape_erodeOnce X
  have hrE : r < (erodeOnce X).length := hshD.1 ▸ hb.1
  have hcE : c < ((erodeOnce X).getD r []).length := hshD.2 r ▸ hb.2
  have hrX : r < X.length := hshE.1 ▸ hrE
  have hcX : c < (X.getD r []).length := hshE.2 r ▸ hcE
  rw [cellB_dilateOnce (erodeOnce X) hrE hcE, List.any_eq_true] at h
  obtain ⟨dr, hdr, hin⟩ := h
  rw [List.any_eq_true] at hin
  obtain ⟨dc, hdc, hget⟩ := hin
  rw [getCell_false_iff] at hget
  obtain ⟨hdr0, hdc0, hcellE⟩ := hget
  have hbE := cellB_true_bounds hcellE
  have hrE2 : ((r : Int) + dr).toNat < X.length := hshE.1 ▸ hbE.1
  have hcE2 : ((c : Int) + dc).toNat <
      (X.getD ((r : Int) + dr).toNat []).length := hshE.2 _ ▸ hbE.2
  rw [cellB_erodeOnce X hrE2 hcE2, List.all_eq_true] at hcellE
  have h1 := hcellE (-dr) (neg_mem_winOffsets hdr)
  rw [List.all_eq_true] at h1
  have h2 := h1 (-dc) (neg_mem_winOffsets hdc)
  have hidx1 : ((((r : Int) + dr).toNat : Int) + -dr) = (r : Int) := by
    rw [Int.toNat_of_nonneg hdr0]
    ring
  have hidx2 : ((((c : Int) + dc).toNat : Int) + -dc) = (c : Int) := by
    rw [Int.toNat_of_nonneg hdc0]
    ring
  rw [hidx1, hidx2, getCell_true_eq_cellB hrX hcX] at h2
  exact h2

theorem iterOp_succ_outer (f : Mask → Mask) :
    ∀ (n : Nat) (m : Mask), iterOp f (n + 1) m = f (iterOp f n m) := by
  intro n
  induction n with
  | zero => intro m; rfl
  | succ k ih =>
    intro m
    show iterOp f (k + 1) (f m) = f (iterOp f (k + 1) m)
    rw [ih (f m)]
    rfl

theorem leMask_openingOf (n : Nat) : ∀ X : Mask, leMask (openingOf n X) X := by
  induction n with
  | zero => intro X; exact leMask_refl X
  | succ k ih =>
    intro X
    have h1 : openingOf (k + 1) X = dilateOnce (openingOf k (erodeOnce X)) := by
      unfold openingOf
      rw [iterOp_succ_outer]
      rfl
    rw [h1]
    have h2 : leMask (openingOf k (erodeOnce X)) (erodeOnce X) := ih (erodeOnce X)
    have h3 := dilateOnce_mono h2 (sameShape_openingOf k (erodeOnce X))
    exact leMask_trans h3 (leMask_dilate_erode X)

theorem cellB_growReach (m S : Mask) {r c : Nat}
    (hr : r < m.length) (hc : c < (m.getD r []).length) :
    cellB (growReach m S) r c =
      (!cellB m r c &&
        (decide (r = 0) || decide (c = 0) ||
         decide (r + 1 = m.length) || decide (c + 1 = (m.getD r []).length) ||
         cellB S r c ||
         getCell S ((r : Int) - 1) (c : Int) false ||
         getCell S ((r : Int) + 1) (c : Int) false ||
         getCell S (r : Int) ((c : Int) - 1) false ||
         getCell S (r : Int) ((c : Int) + 1) false)) := by
  unfold growReach
  exact cellB_rangeMap _ _ hr hc

theorem sameShape_growReach (m S : Mask) : SameShape (growReach m S) m := by
  unfold growReach
  exact sameShape_rangeMap m _

theorem growReach_bg (m S : Mask) : BgSub m (growReach m S) := by
  intro r c h
  have hb := cellB_true_bounds h
  have hsh := sameShape_growReach m S
  have hr : r < m.length := hsh.1 ▸ hb.1
  have hc : c < (m.getD r []).length := hsh.2 r ▸ hb.2
  rw [cellB_growReach m S hr hc, Bool.and_eq_true] at h
  refine ⟨hr, hc, ?_⟩
  have := h.1
  rw [Bool.not_eq_true'] at this
  exact this

theorem growReach_infl (m S : Mask) (hS : BgSub m S) : leMask S (growReach m S) := by
  intro r c h
  obtain ⟨hr, hc, hbg⟩ := hS r c h
  rw [cellB_growReach m S hr hc, hbg, h]
  simp

theorem growReach_step (m S : Mask) {p : Nat × Nat}
    (hin : p.1 < m.length ∧ p.2 < (m.getD p.1 []).length ∧ cellB m p.1 p.2 = false)
    (hsrc : (p.1 = 0 ∨ p.2 = 0 ∨ p.1 + 1 = m.length ∨ p.2 + 1 = (m.getD p.1 []).length) ∨
      (∃ q : Nat × Nat, cellB S q.1 q.2 = true ∧
        ((q.1 + 1 = p.1 ∧ q.2 = p.2) ∨ (p.1 + 1 = q.1 ∧ q.2 = p.2) ∨
         (q.2 + 1 = p.2 ∧ q.1 = p.1) ∨ (p.2 + 1 = q.2 ∧ q.1 = p.1)))) :
    cellB (growReach m S) p.1 p.2 = true := by
  obtain ⟨hr, hc, hbg⟩ := hin
  rw [cellB_growReach m S hr hc, hbg]
  rcases hsrc with hb | ⟨q, hq, hrel⟩
  · rcases hb with h0 | h0 | h0 | h0 <;> simp [h0]
  · rcases hrel with ⟨h1, h2⟩ | ⟨h1, h2⟩ | ⟨h1, h2⟩ | ⟨h1, h2⟩
    · have hget : getCell S ((p.1 : Int) - 1) (p.2 : Int) false = true := by
        rw [getCell_false_iff]
        refine ⟨by omega, by positivity, ?_⟩
        have hi1 : ((p.1 : Int) - 1).toNat = q.1 := by omega
        have hi2 : ((p.2 : Int)).toNat = q.2 := by omega
        rw [hi1, hi2]
        exact hq
      simp [hget]
    · have hget : getCell S ((p.1 : Int) + 1) (p.2 : Int) false = true := by
        rw [getCell_false_iff]
        refine ⟨by positivity, by positivity, ?_⟩
        have hi1 : ((p.1 : Int) + 1).toNat = q.1 := by omega
        have hi2 : ((p.2 : Int)).toNat = q.2 := by omega
        rw [hi1, hi2]
        exact hq
      simp [hget]
    · have hget : getCell S (p.1 : Int) ((p.2 : Int) - 1) false = true := by
        rw [getCell_false_iff]
        refine ⟨by positivity, by omega, ?_⟩
        have hi1 : ((p.1 : Int)).toNat = q.1 := by omega
        have hi2 : ((p.2 : Int) - 1).toNat = q.2 := by omega
        rw [hi1, hi2]
        exact hq
      simp [hget]
    · have hget : getCell S (p.1 : Int) ((p.2 : Int) + 1) false = true := by
        rw [getCell_false_iff]
        refine ⟨by positivity, by positivity, ?_⟩
        have hi1 : ((p.1 : Int)).toNat = q.1 := by omega
        have hi2 : ((p.2 : Int) + 1).toNat = q.2 := by omega
        rw [hi1, hi2]
        exact hq
      simp [hget]

theorem reachFix_infl (m : Mask) :
    ∀ (fuel : Nat) (S : Mask), BgSub m S → leMask S (reachFix m fuel S) := by
  intro fuel
  induction fuel with
  | zero => intro S _; exact leMask_refl S
  | succ k ih =>
    intro S hS
    show leMask S (if growReach m S = S then S else reachFix m k (growReach m S))
    by_cases hfix : growReach m S = S
    · rw [if_pos hfix]
      exact leMask_refl S
    · rw [if_neg hfix]
      exact leMask_trans (growReach_infl m S hS) (ih (growReach m S) (growReach_bg m S))

theorem reachFix_fix_ray (m : Mask) (q : Nat → Nat × Nat) (k : Nat)
    (hborder : (q 0).1 = 0 ∨ (q 0).2 = 0 ∨ (q 0).1 + 1 = m.length ∨
      (q 0).2 + 1 = (m.getD (q 0).1 []).length)
    (hadj : ∀ i, i < k →
      ((q i).1 + 1 = (q (i + 1)).1 ∧ (q i).2 = (q (i + 1)).2) ∨
      ((q (i + 1)).1 + 1 = (q i).1 ∧ (q i).2 = (q (i + 1)).2) ∨
      ((q i).2 + 1 = (q (i + 1)).2 ∧ (q i).1 = (q (i + 1)).1) ∨
      ((q (i + 1)).2 + 1 = (q i).2 ∧ (q i).1 = (q (i + 1)).1))
    (hbg : ∀ i, i ≤ k → (q i).1 < m.length ∧
      (q i).2 < (m.getD (q i).1 []).length ∧ cellB m (q i).1 (q i).2 = false)
    {S : Mask} (hfix : growReach m S = S) :
    ∀ i, i ≤ k → cellB S (q i).1 (q i).2 = true := by
  intro i
  induction i with
  | zero =>
    intro hik
    rw [← hfix]
    exact growReach_step m S (hbg 0 (by omega)) (Or.inl hborder)
  | succ j ih =>
    intro hik
    rw [← hfix]
    apply growReach_step m S (hbg (j + 1) hik)
    right
    exact ⟨q j, ih (by omega), hadj j (by omega)⟩

theorem reachFix_ray (m : Mask) (q : Nat → Nat × Nat) (k : Nat)
    (hborder : (q 0).1 = 0 ∨ (q 0).2 = 0 ∨ (q 0).1 + 1 = m.length ∨
      (q 0).2 + 1 = (m.getD (q 0).1 []).length)
    (hadj : ∀ i, i < k →
      ((q i).1 + 1 = (q (i + 1)).1 ∧ (q i).2 = (q (i + 1)).2) ∨
      ((q (i + 1)).1 + 1 = (q i).1 ∧ (q i).2 = (q (i + 1)).2) ∨
      ((q i).2 + 1 = (q (i + 1)).2 ∧ (q i).1 = (q (i + 1)).1) ∨
      ((q (i + 1)).2 + 1 = (q i).2 ∧ (q i).1 = (q (i + 1)).1))
    (hbg : ∀ i, i ≤ k → (q i).1 < m.length ∧
      (q i).2 < (m.getD (q i).1 []).length ∧ cellB m (q i).1 (q i).2 = false) :
    ∀ (fuel : Nat) (S : Mask) (j : Nat), BgSub m S → j ≤ k + 1 →
      (∀ i, i < j → cellB S (q i).1 (q i).2 = true) → k + 1 ≤ fuel + j →
      cellB (reachFix m fuel S) (q k).1 (q k).2 = true := by
  intro fuel
  induction fuel with
  | zero =>
    intro S j hS hjk hpre hfuel
    have hj : j = k + 1 := by omega
    subst hj
    exact hpre k (by omega)
  | succ f ih =>
    intro S j hS hjk hpre hfuel
    show cellB (if growReach m S = S then S else reachFix m f (growReach m S))
      (q k).1 (q k).2 = true
    by_cases hfix : growReach m S = S
    · rw [if_pos hfix]
      exact reachFix_fix_ray m q k hborder hadj hbg hfix k (le_refl k)
    · rw [if_neg hfix]
      by_cases hj : j = k + 1
      · subst hj
        have hSk : cellB S (q k).1 (q k).2 = true := hpre k (by omega)
        have h1 : cellB (growReach m S) (q k).1 (q k).2 = true :=
          growReach_infl m S hS _ _ hSk
        exact reachFix_infl m f (growReach m S) (growReach_bg m S) _ _ h1
      · refine ih (growReach m S) (j + 1) (growReach_bg m S) (by omega) ?_ (by omega)
        intro i hi
        by_cases hij : i < j
        · exact growReach_infl m S hS _ _ (hpre i hij)
        · have hieq : i = j := by omega
          subst hieq
          apply growReach_step m S (hbg i (by omega))
          by_cases hi0 : i = 0
          · subst hi0
            exact Or.inl hborder
          · right
            refine ⟨q (i - 1), hpre (i - 1) (by omega), ?_⟩
            have hstep := hadj (i - 1) (by omega)
            have hsucc : i - 1 + 1 = i := by omega
            rw [hsucc] at hstep
            exact hstep

theorem reach_of_ray (m : Mask) (q : Nat → Nat × Nat) (k : Nat)
    (hborder : (q 0).1 = 0 ∨ (q 0).2 = 0 ∨ (q 0).1 + 1 = m.length ∨
      (q 0).2 + 1 = (m.getD (q 0).1 []).length)
    (hadj : ∀ i, i < k →
      ((q i).1 + 1 = (q (i + 1)).1 ∧ (q i).2 = (q (i + 1)).2) ∨
      ((q (i + 1)).1 + 1 = (q i).1 ∧ (q i).2 = (q (i + 1)).2) ∨
      ((q i).2 + 1 = (q (i + 1)).2 ∧ (q i).1 = (q (i + 1)).1) ∨
      ((q (i + 1)).2 + 1 = (q i).2 ∧ (q i).1 = (q (i + 1)).1))
    (hbg : ∀ i, i ≤ k → (q i).1 < m.length ∧
      (q i).2 < (m.getD (q i).1 []).length ∧ cellB m (q i).1 (q i).2 = false)
    (hfuel : k + 1 ≤ m.length * mWidth m + 1) :
    cellB (reachFix m (m.length * mWidth m + 1) (emptyLike m)) (q k).1 (q k).2 = true := by
  refine reachFix_ray m q k hborder hadj hbg _ (emptyLike m) 0 ?_ (by omega) ?_ (by omega)
  · intro r c h
    rw [cellB_emptyLike] at h
    cases h
  · intro i hi
    exact absurd hi (by omega)

theorem sameShape_fillHoles (m : Mask) : SameShape (fillHoles m) m := by
  unfold fillHoles
  exact sameShape_rangeMap m _

theorem cellB_fillHoles (m : Mask) {r c : Nat}
    (hr : r < m.length) (hc : c < (m.getD r []).length) :
    cellB (fillHoles m) r c =
      !cellB (reachFix m (m.length * mWidth m + 1) (emptyLike m)) r c := by
  unfold fillHoles
  exact cellB_rangeMap _ _ hr hc

theorem closeSpec_of_le {tp : ℚ} {A B : Mask} (hle : leMask A B) (hsh : SameShape A B)
    (h : closeToAllBordersSpec tp A = true) : closeToAllBordersSpec tp B = true := by
  have hH : mHeight A = mHeight B := hsh.1
  have hW : mWidth A = mWidth B := mWidth_eq_of_sameShape hsh
  unfold closeToAllBordersSpec at h ⊢
  rw [hH, hW] at h
  simp only [Bool.and_eq_true, List.any_eq_true, decide_eq_true_eq] at h ⊢
  obtain ⟨⟨⟨⟨p1, hp1m, hp1⟩, p2, hp2m, hp2⟩, p3, hp3m, hp3⟩, p4, hp4m, hp4⟩ := h
  have transfer : ∀ p : Nat × Nat, p ∈ onCoords A → p ∈ onCoords B := by
    rintro ⟨pr, pc⟩ hp
    obtain ⟨hr, hc, hcell⟩ := mem_onCoords.mp hp
    have hcB := hle _ _ hcell
    have hbB := cellB_true_bounds hcB
    exact mem_onCoords.mpr ⟨hbB.1, hbB.2, hcB⟩
  exact ⟨⟨⟨⟨p1, transfer p1 hp1m, hp1⟩, p2, transfer p2 hp2m, hp2⟩,
    p3, transfer p3 hp3m, hp3⟩, p4, transfer p4 hp4m, hp4⟩

theorem closeSpec_fillHoles {tp : ℚ} {X : Mask} (hrect : IsRect X)
    (h : closeToAllBordersSpec tp (fillHoles X) = true) :
    closeToAllBordersSpec tp X = true := by
  have hsh := sameShape_fillHoles X
  have hH : mHeight (fillHoles X) = mHeight X := hsh.1
  have hW : mWidth (fillHoles X) = mWidth X := mWidth_eq_of_sameShape hsh
  have hrowlen : ∀ i, i < X.length → (X.getD i []).length = mWidth X :=
    fun i hi => hrect _ (getD_mem_of_lt X [] hi)
  unfold closeToAllBordersSpec at h ⊢
  rw [hH, hW] at h
  simp only [Bool.and_eq_true, List.any_eq_true, decide_eq_true_eq] at h ⊢
  obtain ⟨⟨⟨⟨p1, hp1m, hp1⟩, p2, hp2m, hp2⟩, p3, hp3m, hp3⟩, p4, hp4m, hp4⟩ := h
  have hpix : ∀ p : Nat × Nat, p ∈ onCoords (fillHoles X) →
      p.1 < X.length ∧ p.2 < (X.getD p.1 []).length ∧
      cellB (reachFix X (X.length * mWidth X + 1) (emptyLike X)) p.1 p.2 = false := by
    rintro ⟨pr, pc⟩ hp
    obtain ⟨hr, hc, hcell⟩ := mem_onCoords.mp hp
    have hrX : pr < X.length := hsh.1 ▸ hr
    have hcX : pc < (X.getD pr []).length := hsh.2 pr ▸ hc
    rw [cellB_fillHoles X hrX hcX, Bool.not_eq_true'] at hcell
    exact ⟨hrX, hcX, hcell⟩
  obtain ⟨hr1, hc1, hreach1⟩ := hpix p1 hp1m
  obtain ⟨hr2, hc2, hreach2⟩ := hpix p2 hp2m
  obtain ⟨hr3, hc3, hreach3⟩ := hpix p3 hp3m
  obtain ⟨hr4, hc4, hreach4⟩ := hpix p4 hp4m
  have hWpos1 : 0 < mWidth X := by
    have := hrowlen p1.1 hr1
    omega
  have hHpos : 0 < X.length := by omega
  refine ⟨⟨⟨?_, ?_⟩, ?_⟩, ?_⟩
  · -- top band
    by_cases hex : ∃ i, i ≤ p1.1 ∧ cellB X i p1.2 = true
    · obtain ⟨i, hile, hion⟩ := hex
      have hb := cellB_true_bounds hion
      refine ⟨(i, p1.2), mem_onCoords.mpr ⟨hb.1, hb.2, hion⟩, ?_⟩
      show i < borderThreshold tp (mHeight X)
      omega
    · exfalso
      push_neg at hex
      have hray := reach_of_ray X (fun j => (j, p1.2)) p1.1
        (Or.inl rfl)
        (fun i hik => Or.inl ⟨rfl, rfl⟩)
        (fun i hik => by
          show i < X.length ∧ p1.2 < (X.getD i []).length ∧ cellB X i p1.2 = false
          refine ⟨by omega, ?_, Bool.eq_false_iff.mpr (hex i hik)⟩
          rw [hrowlen i (by omega)]
          rw [hrowlen p1.1 hr1] at hc1
          exact hc1)
        (by
          have := Nat.le_mul_of_pos_right X.length hWpos1
          omega)
      have hray2 : cellB (reachFix X (X.length * mWidth X + 1) (emptyLike X))
          p1.1 p1.2 = true := hray
      rw [hreach1] at hray2
      cases hray2
  · -- bottom band
    by_cases hex : ∃ i, p2.1 ≤ i ∧ i < X.length ∧ cellB X i p2.2 = true
    · obtain ⟨i, hile, hilt, hion⟩ := hex
      have hb := cellB_true_bounds hion
      refine ⟨(i, p2.2), mem_onCoords.mpr ⟨hb.1, hb.2, hion⟩, ?_⟩
      show mHeight X - borderThreshold tp (mHeight X) ≤ i
      unfold mHeight at hp2 ⊢
      omega
    · exfalso
      push_neg at hex
      have hray := reach_of_ray X (fun j => (X.length - 1 - j, p2.2)) (X.length - 1 - p2.1)
        (Or.inr (Or.inr (Or.inl (show X.length - 1 - 0 + 1 = X.length by omega))))
        (fun i hik => Or.inr (Or.inl
          ⟨show X.length - 1 - (i + 1) + 1 = X.length - 1 - i by omega, rfl⟩))
        (fun i hik => by
          show X.length - 1 - i < X.length ∧
            p2.2 < (X.getD (X.length - 1 - i) []).length ∧
            cellB X (X.length - 1 - i) p2.2 = false
          refine ⟨by omega, ?_,
            Bool.eq_false_iff.mpr (hex (X.length - 1 - i) (by omega) (by omega))⟩
          rw [hrowlen (X.length - 1 - i) (by omega)]
          rw [hrowlen p2.1 hr2] at hc2
          exact hc2)
        (by
          have := Nat.le_mul_of_pos_right X.length hWpos1
          omega)
      have hray2 : cellB (reachFix X (X.length * mWidth X + 1) (emptyLike X))
          (X.length - 1 - (X.length - 1 - p2.1)) p2.2 = true := hray
      have hidx : X.length - 1 - (X.length - 1 - p2.1) = p2.1 := by omega
      rw [hidx, hreach2] at hray2
      cases hray2
  · -- left band
    by_cases hex : ∃ j, j ≤ p3.2 ∧ cellB X p3.1 j = true
    · obtain ⟨j, hjle, hion⟩ := hex
      have hb := cellB_true_bounds hion
      refine ⟨(p3.1, j), mem_onCoords.mpr ⟨hb.1, hb.2, hion⟩, ?_⟩
      show j < borderThreshold tp (mWidth X)
      omega
    · exfalso
      push_neg at hex
      have hray := reach_of_ray X (fun j => (p3.1, j)) p3.2
        (Or.inr (Or.inl rfl))
        (fun i hik => Or.inr (Or.inr (Or.inl ⟨rfl, rfl⟩)))
        (fun i hik => by
          show p3.1 < X.length ∧ i < (X.getD p3.1 []).length ∧ cellB X p3.1 i = false
          exact ⟨hr3, by omega, Bool.eq_false_iff.mpr (hex i hik)⟩)
        (by
          rw [hrowlen p3.1 hr3] at hc3
          have := Nat.le_mul_of_pos_left (mWidth X) hHpos
          omega)
      have hray2 : cellB (reachFix X (X.length * mWidth X + 1) (emptyLike X))
          p3.1 p3.2 = true := hray
      rw [hreach3] at hray2
      cases hray2
  · -- right band
    by_cases hex : ∃ j, p4.2 ≤ j ∧ j < (X.getD p4.1 []).length ∧ cellB X p4.1 j = true
    · obtain ⟨j, hjle, hjlt, hion⟩ := hex
      have hb := cellB_true_bounds hion
      refine ⟨(p4.1, j), mem_onCoords.mpr ⟨hb.1, hb.2, hion⟩, ?_⟩
      show mWidth X - borderThreshold tp (mWidth X) ≤ j
      omega
    · exfalso
      push_neg at hex
      have hW4 : (X.getD p4.1 []).length = mWidth X := hrowlen p4.1 hr4
      have hray := reach_of_ray X
        (fun j => (p4.1, (X.getD p4.1 []).length - 1 - j))
        ((X.getD p4.1 []).length - 1 - p4.2)
        (Or.inr (Or.inr (Or.inr
          (show (X.getD p4.1 []).length - 1 - 0 + 1 = (X.getD p4.1 []).length by omega))))
        (fun i hik => Or.inr (Or.inr (Or.inr
          ⟨show (X.getD p4.1 []).length - 1 - (i + 1) + 1 =
            (X.getD p4.1 []).length - 1 - i by omega, rfl⟩)))
        (fun i hik => by
          show p4.1 < X.length ∧
            (X.getD p4.1 []).length - 1 - i < (X.getD p4.1 []).length ∧
            cellB X p4.1 ((X.getD p4.1 []).length - 1 - i) = false
          exact ⟨hr4, by omega,
            Bool.eq_false_iff.mpr (hex ((X.getD p4.1 []).length - 1 - i) (by omega) (by omega))⟩)
        (by
          have := Nat.le_mul_of_pos_left (mWidth X) hHpos
          omega)
      have hray2 : cellB (reachFix X (X.length * mWidth X + 1) (emptyLike X))
          p4.1 ((X.getD p4.1 []).length - 1 - ((X.getD p4.1 []).length - 1 - p4.2)) = true := hray
      have hidx : (X.getD p4.1 []).length - 1 - ((X.getD p4.1 []).length - 1 - p4.2) = p4.2 := by
        omega
      rw [hidx, hreach4] at hray2
      cases hray2

theorem refineMasks_mem_decomp {masks : List Mask} {m : Mask} (hm : m ∈ refineMasks masks) :
    ∃ m₀ ∈ removeBorderMasks 5 masks, m = fillHoles (openingOf 5 m₀) := by
  have h1 := removeContainedMasks_subset hm
  rw [filterMasksBySize_eq_filter, List.mem_filter] at h1
  have h2 := h1.1
  rw [filterThinRaggedMasks_eq_map] at h2
  obtain ⟨x, hx, heq1⟩ := List.mem_map.mp h2
  obtain ⟨m₀, hm₀, heq2⟩ := List.mem_map.mp hx
  refine ⟨m₀, hm₀, ?_⟩
  rw [← heq1, ← heq2]

/-- C6: after `remove_border_masks` — and hence after `refine_masks`, whose
later stages replace each survivor by the hole-filled morphological opening
(a transformation that cannot create an on pixel in a border band that the
original mask did not already have a band pixel for: the opening is
anti-extensive, and a filled hole inside a band is walled off towards the
nearby border by mask pixels deeper inside the same band) — no surviving
mask of a rectangular input has on pixels inside all four geometric border
bands of the threshold width simultaneously; this holds for every threshold
percentage and every image size, including sizes whose band rounds down to
zero pixels (then a band is empty and the invariant is vacuous). -/
theorem remove_border_masks_invariant :
    (∀ (tp : ℚ) (masks : List Mask) (m : Mask),
        m ∈ removeBorderMasks tp masks → IsRect m →
        closeToAllBordersSpec tp m = false) ∧
      (∀ (masks : List Mask) (m : Mask), (∀ w ∈ masks, IsRect w) →
        m ∈ refineMasks masks → closeToAllBordersSpec 5 m = false) := by
  refine ⟨removeBorder_band_aux, ?_⟩
  intro masks m hrect hm
  obtain ⟨m₀, hm₀, heq⟩ := refineMasks_mem_decomp hm
  have hm₀mask : m₀ ∈ masks := by
    rw [removeBorderMasks_eq_filter] at hm₀
    exact (List.mem_filter.mp hm₀).1
  have hrect₀ : IsRect m₀ := hrect m₀ hm₀mask
  have hbase : closeToAllBordersSpec 5 m₀ = false :=
    removeBorder_band_aux 5 masks m₀ hm₀ hrect₀
  by_contra hc
  rw [Bool.not_eq_false] at hc
  rw [heq] at hc
  have hrectO : IsRect (openingOf 5 m₀) :=
    isRect_of_sameShape (sameShape_openingOf 5 m₀) hrect₀
  have h1 : closeToAllBordersSpec 5 (openingOf 5 m₀) = true :=
    closeSpec_fillHoles hrectO hc
  have h2 : closeToAllBordersSpec 5 m₀ = true :=
    closeSpec_of_le (leMask_openingOf 5 m₀) (sameShape_openingOf 5 m₀) h1
  rw [hbase] at h2
  cases h2

/-- Witness for C6: the 3×3 all-on mask (threshold band `int(3*0.05) = 0`
pixels) survives the border filter and satisfies the invariant vacuously,
and the 15×15 all-on mask survives the whole refinement and satisfies it
too. -/
theorem remove_border_masks_invariant_witness :
    (full3 ∈ removeBorderMasks 5 [full3] ∧ IsRect full3 ∧
        closeToAllBordersSpec 5 full3 = false) ∧
      (full15 ∈ refineMasks [full15] ∧ closeToAllBordersSpec 5 full15 = false) := by
  have h : isCloseToAllBorders 5 full3 = false := by
    unfold isCloseToAllBorders
    rw [borderThreshold_five, borderThreshold_five]
    decide
  have hmem : full3 ∈ removeBorderMasks 5 [full3] := by
    unfold removeBorderMasks
    rw [List.foldl, if_neg (by rw [h]; exact Bool.false_ne_true), List.foldl]
    exact List.mem_singleton.mpr rfl
  refine ⟨⟨hmem, by decide, remove_border_masks_invariant.1 5 [full3] full3 hmem (by decide)⟩,
    full15_mem_refineMasks, ?_⟩
  exact remove_border_masks_invariant.2 [full15] full15 (by decide) full15_mem_refineMasks

end Vision
